import Mathlib

/-!
Expense tracker (`main.go`): embedding and contract theorems

The program is a command-line tool.  Every invocation reads the whole file
`expenses.json`, runs one command and, for the mutating commands, rewrites the
whole file.  The embedding below passes the file content explicitly:

* `Disk` is the content of `expenses.json`;
* every command is a function from its flags, the clock reading and the disk
  to the new disk and the message it prints.

Conventions of the embedding.

* Go `int` is the 64-bit two's-complement integer; `newID++` wraps (`wrapInt`).
* Go `float64` is the IEEE-754 binary64 format, kept as its three bit fields;
  comparison with zero and addition follow IEEE-754 (round to nearest, ties
  to even).
* `encoding/json` refuses to encode NaN and the infinities.  `os.Create`
  truncates the file before the encoder runs, so a refused encoding leaves an
  empty file behind.
* `encoding/json` decodes only finite amounts and identifiers in the range of
  `int`; any other content makes `loadExpenses` return an error.
* The file system itself is taken to be reliable: opening, reading and writing
  `expenses.json` never fail for reasons outside the program's data.
-/

namespace ExpenseTracker

/-! ## float64 -/

/-- IEEE-754 binary64 value, given by its sign bit, its 11-bit biased exponent
and its 52-bit fraction. -/
structure Float64 where
  sign : Bool
  expo : Nat
  frac : Nat
deriving DecidableEq

namespace Float64

/-- Exponent field all ones and a non-zero fraction. -/
def isNaN (x : Float64) : Bool := decide (2047 ≤ x.expo) && decide (x.frac ≠ 0)

/-- Exponent field all ones and a zero fraction. -/
def isInf (x : Float64) : Bool := decide (2047 ≤ x.expo) && decide (x.frac = 0)

/-- Neither NaN nor an infinity: the values `encoding/json` can write. -/
def isFinite (x : Float64) : Bool := decide (x.expo < 2047)

/-- Positive or negative zero. -/
def isZero (x : Float64) : Bool := decide (x.expo = 0) && decide (x.frac = 0)

/-- The literal `0.0`. -/
def posZero : Float64 := ⟨false, 0, 0⟩

/-- Positive infinity, what the flag value `Inf` parses to. -/
def posInf : Float64 := ⟨false, 2047, 0⟩

/-- The quiet NaN, what the flag value `NaN` parses to. -/
def quietNaN : Float64 := ⟨false, 2047, 2 ^ 51⟩

/-- Go `x <= 0` on float64: false for NaN, true for both zeros and for every
negative value. -/
def leZero (x : Float64) : Bool := !x.isNaN && (x.sign || x.isZero)

/-- Go `x > 0` on float64: false for NaN, for both zeros and for every
negative value. -/
def gtZero (x : Float64) : Bool := !x.isNaN && !x.sign && !x.isZero

/-- Magnitude of a finite value, in units of `2^-1074`. -/
def magnitude (x : Float64) : Nat :=
  if x.expo = 0 then x.frac else (2 ^ 52 + x.frac) <<< (x.expo - 1)

/-- Signed value of a finite number, in units of `2^-1074`. -/
def toInt (x : Float64) : Int :=
  if x.sign then - (x.magnitude : Int) else (x.magnitude : Int)

/-- Position of the highest set bit of `n`, for `0 < n < 2^4096`, found by
binary search over the bits of the answer. -/
def floorLog2 (n : Nat) : Nat :=
  [2048, 1024, 512, 256, 128, 64, 32, 16, 8, 4, 2, 1].foldl
    (fun k s => if n >>> (k + s) = 0 then k else k + s) 0

/-- Round-to-nearest-even decision for a significand `q` with discarded low
part `r` of `shift` bits: round up above half a unit, and at exactly half a
unit when `q` is odd. -/
def roundsUp (shift q r : Nat) : Bool :=
  decide ((1 <<< shift) / 2 < r)
    || (decide (r = (1 <<< shift) / 2) && decide (shift ≠ 0) && decide (q % 2 = 1))

/-- The binary64 value with 53-bit significand `q` scaled by `2^shift` units;
`q = 2^53` carries into the exponent, and an exponent field of 2047 or more is
infinity. -/
def pack (sign : Bool) (shift q : Nat) : Float64 :=
  if q = 2 ^ 53 then
    (if 2047 ≤ shift + 2 then ⟨sign, 2047, 0⟩ else ⟨sign, shift + 2, 0⟩)
  else
    (if 2047 ≤ shift + 1 then ⟨sign, 2047, 0⟩ else ⟨sign, shift + 1, q - 2 ^ 52⟩)

/-- Round a magnitude `n ≥ 2^52` to 53 significant bits, dropping `shift`
low bits. -/
def roundNormal (sign : Bool) (n shift : Nat) : Float64 :=
  pack sign shift
    (if roundsUp shift (n >>> shift) (n - ((n >>> shift) <<< shift)) then (n >>> shift) + 1
      else n >>> shift)

/-- Round a magnitude in units of `2^-1074` to the nearest binary64 value,
ties to even, overflowing to infinity.  Below `2^52` the value is subnormal
and exact. -/
def roundMag (sign : Bool) (n : Nat) : Float64 :=
  if n < 2 ^ 52 then ⟨sign, 0, n⟩ else roundNormal sign n (floorLog2 n - 52)

/-- Go `x + y` on float64. -/
def add (x y : Float64) : Float64 :=
  if x.isNaN || y.isNaN then quietNaN
  else if x.isInf then
    (if y.isInf && (x.sign != y.sign) then quietNaN else ⟨x.sign, 2047, 0⟩)
  else if y.isInf then ⟨y.sign, 2047, 0⟩
  else
    let s := x.toInt + y.toInt
    if s = 0 then ⟨x.sign && y.sign, 0, 0⟩
    else roundMag (decide (s < 0)) s.natAbs

end Float64

/-! ## int -/

/-- Largest value of Go `int` (64-bit). -/
def maxInt : Int := 2 ^ 63 - 1

/-- Smallest value of Go `int` (64-bit). -/
def minInt : Int := -2 ^ 63

/-- Reduction of a mathematical integer to Go `int`: two's-complement
wrap-around on 64 bits. -/
def wrapInt (x : Int) : Int := (x + 2 ^ 63) % 2 ^ 64 - 2 ^ 63

/-! ## time.Time -/

/-- The part of `time.Time` the program can observe: the calendar date, the
time of day in nanoseconds and the zone offset in seconds.  Every value the
program handles comes from the clock, from `time.Parse` with a four-digit year
or from an RFC 3339 string of the file, so `year` is in `0..9999`. -/
structure Time where
  year : Nat
  month : Nat
  day : Nat
  nanos : Nat
  offset : Int
deriving DecidableEq

/-- ASCII digit test of package `time` (`isDigit`). -/
def isDigit (c : Char) : Bool := decide ('0'.toNat ≤ c.toNat) && decide (c.toNat ≤ '9'.toNat)

/-- Value of an ASCII digit. -/
def digitVal (c : Char) : Nat := c.toNat - '0'.toNat

/-- Leap-year rule of package `time` (`isLeap`). -/
def isLeap (year : Nat) : Bool :=
  decide (year % 4 = 0) && (decide (year % 100 ≠ 0) || decide (year % 400 = 0))

/-- Number of days of a month, package `time` (`daysIn`). -/
def daysIn (month year : Nat) : Nat :=
  if month = 2 then (if isLeap year then 29 else 28)
  else if month = 4 ∨ month = 6 ∨ month = 9 ∨ month = 11 then 30
  else 31

/-- The call `time.Parse("2006-01-02", s)`: four digits, a hyphen, two digits,
a hyphen, two digits and nothing else; the month in `1..12` and the day in
`1..daysIn`.  The result is midnight UTC of that day. -/
def parseDate (s : String) : Option Time :=
  match s.toList with
  | [y1, y2, y3, y4, h1, m1, m2, h2, d1, d2] =>
    if isDigit y1 && isDigit y2 && isDigit y3 && isDigit y4 && (h1 == '-')
        && isDigit m1 && isDigit m2 && (h2 == '-') && isDigit d1 && isDigit d2 then
      let year := 1000 * digitVal y1 + 100 * digitVal y2 + 10 * digitVal y3 + digitVal y4
      let month := 10 * digitVal m1 + digitVal m2
      let day := 10 * digitVal d1 + digitVal d2
      if month < 1 ∨ 12 < month then none
      else if day < 1 ∨ daysIn month year < day then none
      else some ⟨year, month, day, 0, 0⟩
    else none
  | _ => none

/-! ## Data model and storage -/

/-- The struct `Expense`. -/
structure Expense where
  ID : Int
  Date : Time
  Description : String
  Amount : Float64
deriving DecidableEq

/-- Content of `expenses.json`. -/
inductive Disk where
  /-- The file does not exist. -/
  | absent
  /-- The file exists and the decoder meets the end of input at once. -/
  | blank
  /-- The file exists and its content is not a JSON array of expense objects. -/
  | malformed
  /-- The file holds an array of expense objects with these field values, in
  this order. -/
  | records (expenses : List Expense)
deriving DecidableEq

/-- What `Decoder.Decode` accepts as an array of `Expense`: JSON has no
notation for NaN or the infinities, and a number outside the range of `int`
cannot be stored in the field `ID`. -/
def jsonDecodable (expenses : List Expense) : Bool :=
  expenses.all (fun e => e.Amount.isFinite && decide (minInt ≤ e.ID) && decide (e.ID ≤ maxInt))

/-- The function `loadExpenses`; `none` stands for a returned error. -/
def loadExpenses : Disk → Option (List Expense)
  | .absent => some []
  | .blank => some []
  | .malformed => none
  | .records expenses => if jsonDecodable expenses then some expenses else none

/-- What `Encoder.Encode` accepts: every amount is finite. -/
def jsonEncodable (expenses : List Expense) : Bool :=
  expenses.all (fun e => e.Amount.isFinite)

/-- The function `saveExpenses`: the new file content and whether `nil` was
returned.  `os.Create` truncates the file; the encoder writes only when the
whole value could be encoded. -/
def saveExpenses (expenses : List Expense) : Disk × Bool :=
  if jsonEncodable expenses then (.records expenses, true) else (.blank, false)

/-- Messages the commands print. -/
inductive Output where
  /-- Message `Expense added successfully (ID: n)` -/
  | added (id : Int)
  /-- Message `Expense deleted successfully` -/
  | deleted
  /-- Message `Expense updated successfully` -/
  | updated
  /-- Message `Total expenses: $t` -/
  | total (t : Float64)
  /-- Message `Total expenses for <month>: $t` -/
  | monthTotal (month : Int) (t : Float64)
  /-- Message `Error: amount must be a positive number` (a validation error) -/
  | amountNotPositive
  /-- Message `Error: no fields provided to update` (a validation error) -/
  | noFields
  /-- Message `Invalid month. Must be between 1 and 12.` (a validation error) -/
  | invalidMonth
  /-- Message `Expense with ID n not found` (the not-found error) -/
  | notFound (id : Int)
  /-- Message `Invalid date format. Use YYYY-MM-DD` (the date parse error) -/
  | invalidDate
  /-- Message `Error loading expenses: ...` -/
  | loadFailed
  /-- Message `Error saving expenses: ...` -/
  | saveFailed
deriving DecidableEq

/-! ## Commands -/

/-- The loop of `addCmd` over the loaded records: the largest identifier above
the initial `newID := 0`. -/
def maxID (expenses : List Expense) : Int :=
  expenses.foldl (fun newID e => if e.ID > newID then e.ID else newID) 0

/-- The identifier `addCmd` assigns: the loop result after `newID++`. -/
def nextID (expenses : List Expense) : Int := wrapInt (maxID expenses + 1)

/-- The command `add` with flags `--description` and `--amount`. -/
def addCmd (description : String) (amount : Float64) (now : Time) (disk : Disk) :
    Disk × Output :=
  if amount.leZero then (disk, .amountNotPositive)
  else
    match loadExpenses disk with
    | none => (disk, .loadFailed)
    | some expenses =>
      let newID := nextID expenses
      let newExpense : Expense := ⟨newID, now, description, amount⟩
      match saveExpenses (expenses ++ [newExpense]) with
      | (disk1, true) => (disk1, .added newID)
      | (disk1, false) => (disk1, .saveFailed)

/-- The search loop of `deleteCmd` and `updateCmd`: index of the first record
whose identifier is `id`. -/
def findID (id : Int) : List Expense → Option Nat
  | [] => none
  | e :: rest => if e.ID = id then some 0 else (findID id rest).map (· + 1)

/-- The command `delete` with flag `--id`. -/
def deleteCmd (id : Int) (disk : Disk) : Disk × Output :=
  match loadExpenses disk with
  | none => (disk, .loadFailed)
  | some expenses =>
    match findID id expenses with
    | none => (disk, .notFound id)
    | some i =>
      match saveExpenses (expenses.take i ++ expenses.drop (i + 1)) with
      | (disk1, true) => (disk1, .deleted)
      | (disk1, false) => (disk1, .saveFailed)

/-- Assignment to a field of `expenses[found]`. -/
def modifyAt (f : Expense → Expense) : List Expense → Nat → List Expense
  | [], _ => []
  | e :: rest, 0 => f e :: rest
  | e :: rest, i + 1 => e :: modifyAt f rest i

/-- The block guarded by `Changed("description")`: no check, the field is
assigned. -/
def setDescription (description : Option String) (expenses : List Expense) (found : Nat) :
    List Expense :=
  match description with
  | some desc => modifyAt (fun e => { e with Description := desc }) expenses found
  | none => expenses

/-- The block guarded by `Changed("amount")`: returns with a message when the
amount is `<= 0`, assigns the field otherwise. -/
def setAmount (amount : Option Float64) (expenses : List Expense) (found : Nat) :
    Except Output (List Expense) :=
  match amount with
  | some a =>
    if a.leZero then .error .amountNotPositive
    else .ok (modifyAt (fun e => { e with Amount := a }) expenses found)
  | none => .ok expenses

/-- The block guarded by `Changed("date")`: returns with a message when
`time.Parse` fails, assigns the field otherwise. -/
def setDate (date : Option String) (expenses : List Expense) (found : Nat) :
    Except Output (List Expense) :=
  match date with
  | some dateStr =>
    match parseDate dateStr with
    | none => .error .invalidDate
    | some d => .ok (modifyAt (fun e => { e with Date := d }) expenses found)
  | none => .ok expenses

/-- The command `update` with flag `--id`; each of `--description`,
`--amount`, `--date` is `some v` when the flag was given on the command line
(`Changed`) and `none` otherwise. -/
def updateCmd (id : Int) (description : Option String) (amount : Option Float64)
    (date : Option String) (disk : Disk) : Disk × Output :=
  match loadExpenses disk with
  | none => (disk, .loadFailed)
  | some expenses =>
    match findID id expenses with
    | none => (disk, .notFound id)
    | some found =>
      if description.isNone && amount.isNone && date.isNone then (disk, .noFields)
      else
        let expenses1 := setDescription description expenses found
        match setAmount amount expenses1 found with
        | .error msg => (disk, msg)
        | .ok expenses2 =>
          match setDate date expenses2 found with
          | .error msg => (disk, msg)
          | .ok expenses3 =>
            match saveExpenses expenses3 with
            | (disk1, true) => (disk1, .updated)
            | (disk1, false) => (disk1, .saveFailed)

/-- The command `summary`; `month` is `some m` when `--month` was given. -/
def summaryCmd (month : Option Int) (now : Time) (disk : Disk) : Disk × Output :=
  match loadExpenses disk with
  | none => (disk, .loadFailed)
  | some expenses =>
    let currentYear := now.year
    match month with
    | some m =>
      if m < 1 ∨ m > 12 then (disk, .invalidMonth)
      else
        (disk, .monthTotal m (expenses.foldl
          (fun total e =>
            if e.Date.year = currentYear ∧ (e.Date.month : Int) = m then total.add e.Amount
            else total)
          Float64.posZero))
    | none =>
      (disk, .total (expenses.foldl (fun total e => total.add e.Amount) Float64.posZero))

/-! ## Sequences of invocations -/

/-- One invocation of a mutating command of the kinds `add` and `delete`. -/
inductive Op where
  | add (description : String) (amount : Float64) (now : Time)
  | delete (id : Int)

/-- Run one invocation on the file. -/
def step (disk : Disk) : Op → Disk × Output
  | .add description amount now => addCmd description amount now disk
  | .delete id => deleteCmd id disk

/-- Run invocations one after the other; the result is the final file and the
messages printed, in order. -/
def run : Disk → List Op → Disk × List Output
  | disk, [] => (disk, [])
  | disk, op :: rest => ((run (step disk op).1 rest).1, (step disk op).2 :: (run (step disk op).1 rest).2)

/-- The identifiers reported by the successful `add` invocations, in order. -/
def assignedIDs : List Output → List Int
  | [] => []
  | .added id :: rest => id :: assignedIDs rest
  | _ :: rest => assignedIDs rest

/-! ## Specification vocabulary -/

/-- The data-model invariant of the specification: identifiers pairwise
distinct and positive, every amount strictly greater than zero. -/
def StoreInvariant (expenses : List Expense) : Prop :=
  (expenses.map (fun e => e.ID)).Nodup ∧ ∀ e ∈ expenses, 0 < e.ID ∧ e.Amount.gtZero = true

/-- The sum of the amounts of the given records: float64 additions from `0.0`,
in storage order. -/
def sumAmounts (expenses : List Expense) : Float64 :=
  (expenses.map (fun e => e.Amount)).foldl Float64.add Float64.posZero

/-- The date of the record lies in month `m` of year `year`. -/
def inMonthOfYear (m : Int) (year : Nat) (e : Expense) : Bool :=
  decide (e.Date.year = year) && decide ((e.Date.month : Int) = m)

/-- What the specification promises of a successful `add` on the stored set
`expenses`: the file holds the old records followed by one new record with
the given fields, and the reported identifier is one more than the largest
old identifier, or 1 for an empty set. -/
def AddContract (expenses : List Expense) (description : String) (amount : Float64)
    (now : Time) (r : Disk × Output) : Prop :=
  ∃ id : Int, r.2 = .added id
    ∧ loadExpenses r.1 = some (expenses ++ [⟨id, now, description, amount⟩])
    ∧ (expenses = [] → id = 1)
    ∧ (expenses ≠ [] → ∃ e ∈ expenses, (∀ x ∈ expenses, x.ID ≤ e.ID) ∧ id = e.ID + 1)

/-- The file loads to a set with pairwise distinct identifiers, all in
`1..n`: what holds after `n` invocations on an initially empty store. -/
def IdsWithin (n : Int) (disk : Disk) : Prop :=
  ∃ es, loadExpenses disk = some es ∧ (es.map (fun e => e.ID)).Nodup
    ∧ ∀ e ∈ es, 0 < e.ID ∧ e.ID ≤ n

/-- None of `--description`, `--amount`, `--date` was given. -/
def noFieldSupplied (description : Option String) (amount : Option Float64)
    (date : Option String) : Bool :=
  description.isNone && amount.isNone && date.isNone

/-- An amount was given and it is `<= 0`. -/
def badAmount (amount : Option Float64) : Bool :=
  match amount with
  | some a => a.leZero
  | none => false

/-- A date was given and `time.Parse` with the layout `2006-01-02` rejects it. -/
def badDate (date : Option String) : Bool :=
  match date with
  | some s => (parseDate s).isNone
  | none => false

/-- An amount was given and it is NaN or an infinity. -/
def nonFiniteAmount (amount : Option Float64) : Bool :=
  match amount with
  | some a => !a.isFinite
  | none => false

/-- The record `e` with exactly the given fields overwritten. -/
def applyFields (e : Expense) (description : Option String) (amount : Option Float64)
    (date : Option String) : Expense :=
  { ID := e.ID
    Date := (date.bind parseDate).getD e.Date
    Description := description.getD e.Description
    Amount := amount.getD e.Amount }

/-- The ASCII character of the last decimal digit of `n`. -/
def digitChar (n : Nat) : Char := Char.ofNat (48 + n % 10)

/-- The calendar date of `t` written as `YYYY-MM-DD`, the text that
`t.Format("2006-01-02")` gives for a year in `0..9999`. -/
def formatDate (t : Time) : String :=
  String.mk [digitChar (t.year / 1000), digitChar (t.year / 100), digitChar (t.year / 10),
    digitChar t.year, '-', digitChar (t.month / 10), digitChar t.month, '-',
    digitChar (t.day / 10), digitChar t.day]

/-- The text `s` is the `YYYY-MM-DD` writing of the calendar day of `t`, and
`t` is midnight UTC of that day. -/
def IsMidnightOf (s : String) (t : Time) : Prop :=
  formatDate t = s ∧ t.year < 10000 ∧ 1 ≤ t.month ∧ t.month ≤ 12 ∧ 1 ≤ t.day ∧ t.day ≤ 31
    ∧ t.nanos = 0 ∧ t.offset = 0

/-- A magnitude in units of `2^-1074` that a finite binary64 value can have:
at most 53 significant bits and a scale within the exponent range. -/
def Representable (n : Nat) : Prop := ∃ m e, m < 2 ^ 53 ∧ e ≤ 2045 ∧ n = m * 2 ^ e

/-- The exact sum of the amounts of the given records, as an integer number
of units of `2^-1074`. -/
def exactSum (expenses : List Expense) : Int :=
  (expenses.map (fun e => e.Amount.toInt)).sum

/-- Every partial sum met when the amounts are added to `acc` in list order is
the value of a finite binary64 number. -/
def PartialSumsExact : Int → List Expense → Prop
  | _, [] => True
  | acc, e :: rest =>
    Representable (acc + e.Amount.toInt).natAbs ∧ PartialSumsExact (acc + e.Amount.toInt) rest

/-! ## Sample values -/

/-- The float64 value 1. -/
def one : Float64 := ⟨false, 1023, 0⟩

/-- The float64 value 10. -/
def ten : Float64 := ⟨false, 1026, 2 ^ 50⟩

/-- The float64 value 15. -/
def fifteen : Float64 := ⟨false, 1026, 7 * 2 ^ 49⟩

/-- The float64 value 20. -/
def twenty : Float64 := ⟨false, 1027, 2 ^ 50⟩

/-- The float64 value 25. -/
def twentyFive : Float64 := ⟨false, 1027, 9 * 2 ^ 48⟩

/-- The float64 value `2^53`. -/
def twoPow53 : Float64 := ⟨false, 1076, 0⟩

/-- The float64 value `2^53 + 2`. -/
def twoPow53Plus2 : Float64 := ⟨false, 1076, 1⟩

/-- Noon UTC of the given day. -/
def noon (year month day : Nat) : Time := ⟨year, month, day, 43200000000000, 0⟩

/-! ## Auxiliary lemmas -/

theorem load_decodable {disk : Disk} {es : List Expense} (h : loadExpenses disk = some es) :
    jsonDecodable es = true := by
  cases disk with
  | absent => simp [loadExpenses] at h; subst h; rfl
  | blank => simp [loadExpenses] at h; subst h; rfl
  | malformed => simp [loadExpenses] at h
  | records l =>
    simp only [loadExpenses] at h
    split at h
    · rename_i hd
      cases h
      exact hd
    · cases h

theorem load_records {es : List Expense} (h : jsonDecodable es = true) :
    loadExpenses (.records es) = some es := by
  simp [loadExpenses, h]

theorem decodable_iff {es : List Expense} :
    jsonDecodable es = true ↔
      ∀ e ∈ es, e.Amount.isFinite = true ∧ minInt ≤ e.ID ∧ e.ID ≤ maxInt := by
  simp [jsonDecodable, List.all_eq_true, and_assoc]

theorem encodable_iff {es : List Expense} :
    jsonEncodable es = true ↔ ∀ e ∈ es, e.Amount.isFinite = true := by
  simp [jsonEncodable, List.all_eq_true]

theorem decodable_encodable {es : List Expense} (h : jsonDecodable es = true) :
    jsonEncodable es = true := by
  rw [encodable_iff]
  intro e he
  exact (decodable_iff.mp h e he).1

theorem findID_eq_none {id : Int} {es : List Expense} :
    findID id es = none ↔ ∀ e ∈ es, e.ID ≠ id := by
  induction es with
  | nil => simp [findID]
  | cons e rest ih =>
    by_cases h : e.ID = id
    · simp [findID, h]
    · simp [findID, h, ih]

theorem findID_split {id : Int} {es : List Expense} {i : Nat} (h : findID id es = some i) :
    ∃ pre e post, es = pre ++ e :: post ∧ pre.length = i ∧ e.ID = id ∧ ∀ x ∈ pre, x.ID ≠ id := by
  induction es generalizing i with
  | nil => simp [findID] at h
  | cons e rest ih =>
    by_cases he : e.ID = id
    · simp [findID, he] at h
      exact ⟨[], e, rest, rfl, by simpa using h, he, by simp⟩
    · simp only [findID, he, if_false, Option.map_eq_some'] at h
      obtain ⟨j, hj, hji⟩ := h
      obtain ⟨pre, e1, post, hes, hlen, hid, hpre⟩ := ih hj
      refine ⟨e :: pre, e1, post, by rw [hes]; rfl, by simp [hlen, hji], hid, ?_⟩
      intro x hx
      rcases List.mem_cons.mp hx with rfl | hx
      · exact he
      · exact hpre x hx

theorem findID_isSome {id : Int} {es : List Expense} (h : ∃ e ∈ es, e.ID = id) :
    ∃ i, findID id es = some i := by
  cases hf : findID id es with
  | some i => exact ⟨i, rfl⟩
  | none =>
    obtain ⟨e, he, hid⟩ := h
    exact absurd hid (findID_eq_none.mp hf e he)

theorem take_drop_split (pre post : List Expense) (e : Expense) :
    (pre ++ e :: post).take pre.length ++ (pre ++ e :: post).drop (pre.length + 1) = pre ++ post := by
  induction pre with
  | nil => simp
  | cons a pre ih => simp

theorem modifyAt_split (f : Expense → Expense) (pre post : List Expense) (e : Expense) :
    modifyAt f (pre ++ e :: post) pre.length = pre ++ f e :: post := by
  induction pre with
  | nil => simp [modifyAt]
  | cons a pre ih => simpa [modifyAt] using ih

theorem foldl_max_ge_init (es : List Expense) (m : Int) :
    m ≤ es.foldl (fun newID e => if e.ID > newID then e.ID else newID) m := by
  induction es generalizing m with
  | nil => simp
  | cons e rest ih =>
    simp only [List.foldl_cons]
    refine le_trans ?_ (ih _)
    split <;> omega

theorem foldl_max_ge_mem (es : List Expense) (m : Int) :
    ∀ e ∈ es, e.ID ≤ es.foldl (fun newID e => if e.ID > newID then e.ID else newID) m := by
  induction es generalizing m with
  | nil => simp
  | cons a rest ih =>
    intro e he
    simp only [List.foldl_cons]
    rcases List.mem_cons.mp he with rfl | he
    · refine le_trans ?_ (foldl_max_ge_init rest _)
      split <;> omega
    · exact ih _ e he

theorem foldl_max_eq (es : List Expense) (m : Int) :
    es.foldl (fun newID e => if e.ID > newID then e.ID else newID) m = m
      ∨ ∃ e ∈ es, e.ID = es.foldl (fun newID e => if e.ID > newID then e.ID else newID) m := by
  induction es generalizing m with
  | nil => simp
  | cons a rest ih =>
    simp only [List.foldl_cons]
    rcases ih (if a.ID > m then a.ID else m) with h | ⟨e, he, h⟩
    · by_cases ha : a.ID > m
      · right
        refine ⟨a, List.mem_cons_self _ _, ?_⟩
        rw [h]; simp [ha]
      · left
        rw [h]; simp [ha]
    · right
      exact ⟨e, List.mem_cons_of_mem _ he, h⟩

theorem maxID_nonneg (es : List Expense) : 0 ≤ maxID es := foldl_max_ge_init es 0

theorem maxID_ge (es : List Expense) : ∀ e ∈ es, e.ID ≤ maxID es := foldl_max_ge_mem es 0

theorem maxID_eq (es : List Expense) : maxID es = 0 ∨ ∃ e ∈ es, e.ID = maxID es :=
  foldl_max_eq es 0

theorem maxID_le_of_bound (es : List Expense) (b : Int) (hb : 0 ≤ b) (h : ∀ e ∈ es, e.ID ≤ b) :
    maxID es ≤ b := by
  rcases maxID_eq es with h0 | ⟨e, he, hid⟩
  · omega
  · rw [← hid]; exact h e he

theorem wrapInt_eq (x : Int) (h1 : minInt ≤ x) (h2 : x ≤ maxInt) : wrapInt x = x := by
  unfold wrapInt
  unfold minInt at h1
  unfold maxInt at h2
  omega

theorem nextID_eq (es : List Expense) (h : maxID es < maxInt) : nextID es = maxID es + 1 := by
  have h0 := maxID_nonneg es
  apply wrapInt_eq
  · unfold minInt; omega
  · omega

theorem gtZero_not_leZero {x : Float64} (h : x.gtZero = true) : x.leZero = false := by
  simp only [Float64.gtZero, Float64.leZero] at *
  cases hn : x.isNaN <;> cases hs : x.sign <;> cases hz : x.isZero <;> simp_all

theorem not_leZero_finite_gtZero {x : Float64} (h : x.leZero = false)
    (hf : x.isFinite = true) : x.gtZero = true := by
  have hn : x.isNaN = false := by
    simp only [Float64.isFinite, decide_eq_true_eq] at hf
    simp only [Float64.isNaN, Bool.and_eq_false_iff, decide_eq_false_iff_not]
    left; omega
  simp only [Float64.gtZero, Float64.leZero] at *
  cases hs : x.sign <;> cases hz : x.isZero <;> simp_all

/-- What `addCmd` does when the amount passes the check, the file loads and
the new list can be encoded. -/
theorem addCmd_saved (disk : Disk) (es : List Expense) (description : String)
    (amount : Float64) (now : Time) (hload : loadExpenses disk = some es)
    (hle : amount.leZero = false) (hfin : amount.isFinite = true) :
    addCmd description amount now disk
      = (.records (es ++ [⟨nextID es, now, description, amount⟩]), .added (nextID es)) := by
  have henc : jsonEncodable (es ++ [⟨nextID es, now, description, amount⟩]) = true := by
    rw [encodable_iff]
    intro e he
    rcases List.mem_append.mp he with h | h
    · exact (decodable_iff.mp (load_decodable hload) e h).1
    · simp only [List.mem_singleton] at h
      subst h
      exact hfin
  simp [addCmd, hle, hload, saveExpenses, henc]

/-- What `addCmd` does when the amount passes the check, the file loads and
the amount cannot be encoded: the file is left empty. -/
theorem addCmd_not_saved (disk : Disk) (es : List Expense) (description : String)
    (amount : Float64) (now : Time) (hload : loadExpenses disk = some es)
    (hle : amount.leZero = false) (hfin : amount.isFinite = false) :
    addCmd description amount now disk = (.blank, .saveFailed) := by
  have henc : jsonEncodable (es ++ [⟨nextID es, now, description, amount⟩]) = false := by
    simp [jsonEncodable, hfin]
  simp [addCmd, hle, hload, saveExpenses, henc]

theorem wrapInt_range (x : Int) : minInt ≤ wrapInt x ∧ wrapInt x ≤ maxInt := by
  unfold wrapInt minInt maxInt
  omega

theorem decodable_append_new (es : List Expense) (e : Expense)
    (hes : jsonDecodable es = true) (hfin : e.Amount.isFinite = true)
    (h1 : minInt ≤ e.ID) (h2 : e.ID ≤ maxInt) : jsonDecodable (es ++ [e]) = true := by
  rw [decodable_iff] at hes ⊢
  intro x hx
  rcases List.mem_append.mp hx with h | h
  · exact hes x h
  · simp only [List.mem_singleton] at h
    subst h
    exact ⟨hfin, h1, h2⟩

theorem maxID_append (es : List Expense) (x : Expense) :
    maxID (es ++ [x]) = if x.ID > maxID es then x.ID else maxID es := by
  simp [maxID, List.foldl_append]

theorem maxID_lt_maxInt (es : List Expense) (hdec : jsonDecodable es = true)
    (hmax : ∀ e ∈ es, e.ID ≠ maxInt) : maxID es < maxInt := by
  rcases maxID_eq es with h0 | ⟨e, he, hid⟩
  · rw [h0]; decide
  · have := (decodable_iff.mp hdec e he).2.2
    have := hmax e he
    omega

theorem add_rejects_amount_aux (disk : Disk) (description : String) (amount : Float64)
    (now : Time) (h : amount.leZero = true) :
    addCmd description amount now disk = (disk, .amountNotPositive) := by
  simp [addCmd, h]

theorem addCmd_cases (disk : Disk) (es : List Expense) (description : String)
    (amount : Float64) (now : Time) (hload : loadExpenses disk = some es) :
    addCmd description amount now disk = (disk, .amountNotPositive)
      ∨ addCmd description amount now disk = (.blank, .saveFailed)
      ∨ (amount.leZero = false ∧ amount.isFinite = true
          ∧ addCmd description amount now disk
            = (.records (es ++ [⟨nextID es, now, description, amount⟩]), .added (nextID es))) := by
  cases hle : amount.leZero with
  | true => left; exact add_rejects_amount_aux disk description amount now hle
  | false =>
    cases hfin : amount.isFinite with
    | false => right; left; exact addCmd_not_saved disk es description amount now hload hle hfin
    | true =>
      right; right
      exact ⟨rfl, rfl, addCmd_saved disk es description amount now hload hle hfin⟩

theorem deleteCmd_cases (disk : Disk) (es : List Expense) (id : Int)
    (hload : loadExpenses disk = some es) :
    deleteCmd id disk = (disk, .notFound id)
      ∨ ∃ pre e post, es = pre ++ e :: post ∧ e.ID = id
          ∧ deleteCmd id disk = (.records (pre ++ post), .deleted)
          ∧ loadExpenses (.records (pre ++ post)) = some (pre ++ post) := by
  cases hf : findID id es with
  | none => left; simp [deleteCmd, hload, hf]
  | some i =>
    right
    obtain ⟨pre, e, post, hes, hlen, he, -⟩ := findID_split hf
    have hdec := load_decodable hload
    have hdec2 : jsonDecodable (pre ++ post) = true := by
      rw [decodable_iff] at hdec ⊢
      intro x hx
      apply hdec
      rw [hes]
      rcases List.mem_append.mp hx with h | h
      · exact List.mem_append_left _ h
      · exact List.mem_append_right _ (List.mem_cons_of_mem _ h)
    have htd : es.take i ++ es.drop (i + 1) = pre ++ post := by
      rw [hes, ← hlen]; exact take_drop_split pre post e
    refine ⟨pre, e, post, hes, he, ?_, load_records hdec2⟩
    simp [deleteCmd, hload, hf, htd, saveExpenses, decodable_encodable hdec2]

theorem idsWithin_mono {n m : Int} {disk : Disk} (h : IdsWithin n disk) (hnm : n ≤ m) :
    IdsWithin m disk := by
  obtain ⟨es, hload, hnd, hb⟩ := h
  exact ⟨es, hload, hnd, fun e he => ⟨(hb e he).1, le_trans (hb e he).2 hnm⟩⟩

theorem idsWithin_blank (n : Int) : IdsWithin n .blank :=
  ⟨[], rfl, by simp, by simp⟩

theorem idsWithin_step {n : Int} {disk : Disk} (h : IdsWithin n disk) (hn0 : 0 ≤ n)
    (hn : n < maxInt) (op : Op) : IdsWithin (n + 1) (step disk op).1 := by
  obtain ⟨es, hload, hnd, hb⟩ := h
  have hkeep : IdsWithin (n + 1) disk :=
    ⟨es, hload, hnd, fun e he => ⟨(hb e he).1, by have := (hb e he).2; omega⟩⟩
  cases op with
  | add description amount now =>
    simp only [step]
    rcases addCmd_cases disk es description amount now hload with h | h | ⟨-, hfin, h⟩
    · rw [h]; exact hkeep
    · rw [h]; exact idsWithin_blank _
    · rw [h]
      have hmle : maxID es ≤ n := maxID_le_of_bound es n hn0 (fun e he => (hb e he).2)
      have hm0 := maxID_nonneg es
      have hnext : nextID es = maxID es + 1 := nextID_eq es (by omega)
      have hdec2 : jsonDecodable (es ++ [⟨nextID es, now, description, amount⟩]) = true :=
        decodable_append_new es _ (load_decodable hload) hfin (wrapInt_range _).1
          (wrapInt_range _).2
      refine ⟨_, load_records hdec2, ?_, ?_⟩
      · rw [List.map_append, List.nodup_append]
        refine ⟨hnd, by simp, ?_⟩
        intro a ha hb2
        simp only [List.map_cons, List.map_nil, List.mem_singleton] at hb2
        obtain ⟨e, he, rfl⟩ := List.mem_map.mp ha
        have := maxID_ge es e he
        omega
      · intro e he
        rcases List.mem_append.mp he with h1 | h1
        · exact ⟨(hb e h1).1, by have := (hb e h1).2; omega⟩
        · simp only [List.mem_singleton] at h1
          subst h1
          simp only [hnext]
          constructor <;> omega
  | delete id =>
    simp only [step]
    rcases deleteCmd_cases disk es id hload with h | ⟨pre, e, post, hes, -, h, hl⟩
    · rw [h]; exact hkeep
    · rw [h]
      refine ⟨_, hl, ?_, ?_⟩
      · rw [hes] at hnd
        simp only [List.map_append, List.map_cons] at hnd ⊢
        exact hnd.sublist (List.Sublist.append_left (List.sublist_cons_self _ _) _)
      · intro x hx
        have hx2 : x ∈ es := by
          rw [hes]
          rcases List.mem_append.mp hx with h1 | h1
          · exact List.mem_append_left _ h1
          · exact List.mem_append_right _ (List.mem_cons_of_mem _ h1)
        exact ⟨(hb x hx2).1, by have := (hb x hx2).2; omega⟩

theorem idsWithin_run (ops : List Op) : ∀ (n : Int) (disk : Disk), IdsWithin n disk → 0 ≤ n →
    n + ops.length < maxInt + 1 → IdsWithin (n + ops.length) (run disk ops).1 := by
  induction ops with
  | nil =>
    intro n disk h _ _
    simpa [run] using h
  | cons op rest ih =>
    intro n disk h hn0 hlen
    simp only [List.length_cons, Nat.cast_add, Nat.cast_one] at hlen ⊢
    have hstep := idsWithin_step h hn0 (by omega) op
    have := ih (n + 1) (step disk op).1 hstep (by omega) (by omega)
    simp only [run]
    have heq : n + (↑rest.length + 1) = n + 1 + ↑rest.length := by omega
    rw [heq]
    exact this

theorem findID_of_split {id : Int} (pre post : List Expense) (e : Expense)
    (he : e.ID = id) (hpre : ∀ x ∈ pre, x.ID ≠ id) :
    findID id (pre ++ e :: post) = some pre.length := by
  induction pre with
  | nil => simp [findID, he]
  | cons a pre ih =>
    have ha : a.ID ≠ id := hpre a (List.mem_cons_self _ _)
    have := ih (fun x hx => hpre x (List.mem_cons_of_mem _ hx))
    simp [findID, ha, this]

/-- Decision table of `updateCmd` once the record has been located. -/
theorem updateCmd_found (disk : Disk) (id : Int) (description : Option String)
    (amount : Option Float64) (date : Option String) (pre post : List Expense) (e : Expense)
    (hload : loadExpenses disk = some (pre ++ e :: post)) (he : e.ID = id)
    (hpre : ∀ x ∈ pre, x.ID ≠ id) :
    updateCmd id description amount date disk =
      if noFieldSupplied description amount date then (disk, .noFields)
      else if badAmount amount then (disk, .amountNotPositive)
      else if badDate date then (disk, .invalidDate)
      else if jsonEncodable (pre ++ applyFields e description amount date :: post)
        then (.records (pre ++ applyFields e description amount date :: post), .updated)
      else (.blank, .saveFailed) := by
  have hf := findID_of_split pre post e he hpre
  have hsave : ∀ l : List Expense,
      (match saveExpenses l with
        | (disk1, true) => (disk1, Output.updated)
        | (disk1, false) => (disk1, Output.saveFailed))
      = if jsonEncodable l then (Disk.records l, Output.updated)
        else (Disk.blank, Output.saveFailed) := by
    intro l
    cases h : jsonEncodable l <;> simp [saveExpenses, h]
  simp only [updateCmd, hload, hf, noFieldSupplied]
  rcases description with _ | desc <;> rcases amount with _ | a <;> rcases date with _ | s
  · simp
  · cases hp : parseDate s <;>
      simp [setDescription, setAmount, setDate, badAmount, badDate, modifyAt_split, applyFields,
        hsave, hp]
  · cases hle : a.leZero <;>
      simp [setDescription, setAmount, setDate, badAmount, badDate, modifyAt_split, applyFields,
        hsave, hle]
  · cases hle : a.leZero <;> cases hp : parseDate s <;>
      simp [setDescription, setAmount, setDate, badAmount, badDate, modifyAt_split, applyFields,
        hsave, hle, hp]
  · simp [setDescription, setAmount, setDate, badAmount, badDate, modifyAt_split, applyFields,
      hsave]
  · cases hp : parseDate s <;>
      simp [setDescription, setAmount, setDate, badAmount, badDate, modifyAt_split, applyFields,
        hsave, hp]
  · cases hle : a.leZero <;>
      simp [setDescription, setAmount, setDate, badAmount, badDate, modifyAt_split, applyFields,
        hsave, hle]
  · cases hle : a.leZero <;> cases hp : parseDate s <;>
      simp [setDescription, setAmount, setDate, badAmount, badDate, modifyAt_split, applyFields,
        hsave, hle, hp]

theorem exists_split_of_id {id : Int} {es : List Expense} (h : ∃ e ∈ es, e.ID = id) :
    ∃ pre e post, es = pre ++ e :: post ∧ e.ID = id ∧ ∀ x ∈ pre, x.ID ≠ id := by
  obtain ⟨i, hi⟩ := findID_isSome h
  obtain ⟨pre, e, post, hes, -, he, hpre⟩ := findID_split hi
  exact ⟨pre, e, post, hes, he, hpre⟩

theorem updateCmd_unknown (disk : Disk) (es : List Expense) (id : Int)
    (description : Option String) (amount : Option Float64) (date : Option String)
    (hload : loadExpenses disk = some es) (hid : ∀ e ∈ es, e.ID ≠ id) :
    updateCmd id description amount date disk = (disk, .notFound id) := by
  simp [updateCmd, hload, findID_eq_none.mpr hid]

theorem badAmount_supplied {description : Option String} {amount : Option Float64}
    {date : Option String} (h : badAmount amount = true) :
    noFieldSupplied description amount date = false := by
  cases amount with
  | none => simp [badAmount] at h
  | some a => simp [noFieldSupplied]

theorem badDate_supplied {description : Option String} {amount : Option Float64}
    {date : Option String} (h : badDate date = true) :
    noFieldSupplied description amount date = false := by
  cases date with
  | none => simp [badDate] at h
  | some a => simp [noFieldSupplied]

theorem decodable_replace (pre post : List Expense) (e e1 : Expense)
    (hdec : jsonDecodable (pre ++ e :: post) = true) (hid : e1.ID = e.ID)
    (hfin : e1.Amount.isFinite = true) : jsonDecodable (pre ++ e1 :: post) = true := by
  rw [decodable_iff] at hdec ⊢
  intro x hx
  rcases List.mem_append.mp hx with h | h
  · exact hdec x (List.mem_append_left _ h)
  · rcases List.mem_cons.mp h with h | h
    · subst h
      have := hdec e (List.mem_append_right _ (List.mem_cons_self _ _))
      rw [hid]
      exact ⟨hfin, this.2⟩
    · exact hdec x (List.mem_append_right _ (List.mem_cons_of_mem _ h))

theorem encodable_mid (pre post : List Expense) (e : Expense)
    (h : jsonEncodable (pre ++ e :: post) = true) : e.Amount.isFinite = true :=
  encodable_iff.mp h e (List.mem_append_right _ (List.mem_cons_self _ _))

theorem storeInvariant_nil : StoreInvariant [] := ⟨by simp, by simp⟩

theorem storeInvariant_remove (pre post : List Expense) (e : Expense)
    (h : StoreInvariant (pre ++ e :: post)) : StoreInvariant (pre ++ post) := by
  obtain ⟨hnd, hb⟩ := h
  refine ⟨?_, ?_⟩
  · simp only [List.map_append, List.map_cons] at hnd ⊢
    exact hnd.sublist (List.Sublist.append_left (List.sublist_cons_self _ _) _)
  · intro x hx
    apply hb
    rcases List.mem_append.mp hx with h1 | h1
    · exact List.mem_append_left _ h1
    · exact List.mem_append_right _ (List.mem_cons_of_mem _ h1)

theorem storeInvariant_replace (pre post : List Expense) (e e1 : Expense)
    (h : StoreInvariant (pre ++ e :: post)) (hid : e1.ID = e.ID)
    (hgt : e1.Amount.gtZero = true) : StoreInvariant (pre ++ e1 :: post) := by
  obtain ⟨hnd, hb⟩ := h
  refine ⟨?_, ?_⟩
  · simp only [List.map_append, List.map_cons] at hnd ⊢
    rw [hid]; exact hnd
  · intro x hx
    rcases List.mem_append.mp hx with h1 | h1
    · exact hb x (List.mem_append_left _ h1)
    · rcases List.mem_cons.mp h1 with h2 | h2
      · subst h2
        have := hb e (List.mem_append_right _ (List.mem_cons_self _ _))
        rw [hid]
        exact ⟨this.1, hgt⟩
      · exact hb x (List.mem_append_right _ (List.mem_cons_of_mem _ h2))

theorem storeInvariant_append (es : List Expense) (e : Expense) (h : StoreInvariant es)
    (hid : ∀ x ∈ es, x.ID < e.ID) (hpos : 0 < e.ID) (hgt : e.Amount.gtZero = true) :
    StoreInvariant (es ++ [e]) := by
  obtain ⟨hnd, hb⟩ := h
  refine ⟨?_, ?_⟩
  · rw [List.map_append, List.nodup_append]
    refine ⟨hnd, by simp, ?_⟩
    intro a ha hb2
    simp only [List.map_cons, List.map_nil, List.mem_singleton] at hb2
    obtain ⟨x, hx, rfl⟩ := List.mem_map.mp ha
    have := hid x hx
    omega
  · intro x hx
    rcases List.mem_append.mp hx with h1 | h1
    · exact hb x h1
    · simp only [List.mem_singleton] at h1
      subst h1
      exact ⟨hpos, hgt⟩

theorem encodable_applyFields_iff (pre post : List Expense) (e : Expense)
    (description : Option String) (amount : Option Float64) (date : Option String)
    (hdec : jsonDecodable (pre ++ e :: post) = true) :
    jsonEncodable (pre ++ applyFields e description amount date :: post) = true
      ↔ nonFiniteAmount amount = false := by
  have hall := decodable_iff.mp hdec
  constructor
  · intro h
    have := encodable_mid pre post _ h
    cases amount with
    | none => rfl
    | some a => simpa [applyFields, nonFiniteAmount] using this
  · intro h
    rw [encodable_iff]
    intro x hx
    rcases List.mem_append.mp hx with h1 | h1
    · exact (hall x (List.mem_append_left _ h1)).1
    · rcases List.mem_cons.mp h1 with h2 | h2
      · subst h2
        cases amount with
        | none =>
          exact (hall e (List.mem_append_right _ (List.mem_cons_self _ _))).1
        | some a => simpa [applyFields, nonFiniteAmount] using h
      · exact (hall x (List.mem_append_right _ (List.mem_cons_of_mem _ h2))).1

theorem foldl_all_eq (es : List Expense) (init : Float64) :
    es.foldl (fun total e => total.add e.Amount) init
      = (es.map (fun e => e.Amount)).foldl Float64.add init := by
  induction es generalizing init with
  | nil => rfl
  | cons e rest ih => simp only [List.foldl_cons, List.map_cons]; exact ih _

theorem foldl_month_eq (es : List Expense) (m : Int) (year : Nat) (init : Float64) :
    es.foldl (fun total e =>
        if e.Date.year = year ∧ (e.Date.month : Int) = m then total.add e.Amount else total) init
      = ((es.filter (inMonthOfYear m year)).map (fun e => e.Amount)).foldl Float64.add init := by
  induction es generalizing init with
  | nil => rfl
  | cons e rest ih =>
    simp only [List.foldl_cons]
    by_cases h : e.Date.year = year ∧ (e.Date.month : Int) = m
    · have hp : inMonthOfYear m year e = true := by simp [inMonthOfYear, h.1, h.2]
      rw [if_pos h, List.filter_cons_of_pos hp]
      simp only [List.map_cons, List.foldl_cons]
      exact ih _
    · have hp : ¬ inMonthOfYear m year e = true := by
        simp only [inMonthOfYear, Bool.and_eq_true, decide_eq_true_eq]
        exact h
      rw [if_neg h, List.filter_cons_of_neg hp]
      exact ih _

theorem digitChar_digitVal {c : Char} (h : isDigit c = true) :
    digitVal c < 10 ∧ Char.ofNat (48 + digitVal c) = c := by
  have h0 : '0'.toNat = 48 := rfl
  have h9 : '9'.toNat = 57 := rfl
  simp only [isDigit, h0, h9, Bool.and_eq_true, decide_eq_true_eq] at h
  simp only [digitVal, h0]
  refine ⟨by omega, ?_⟩
  have : 48 + (c.toNat - 48) = c.toNat := by omega
  rw [this]
  exact Char.ofNat_toNat c

theorem daysIn_le (month year : Nat) : daysIn month year ≤ 31 := by
  unfold daysIn
  split
  · split <;> omega
  · split <;> omega

theorem parseDate_sound {s : String} {t : Time} (h : parseDate s = some t) :
    IsMidnightOf s t := by
  unfold parseDate at h
  split at h
  · rename_i y1 y2 y3 y4 h1 m1 m2 h2 d1 d2 hs
    split at h
    · rename_i hc
      simp only [Bool.and_eq_true, beq_iff_eq] at hc
      obtain ⟨⟨⟨⟨⟨⟨⟨⟨⟨hy1, hy2⟩, hy3⟩, hy4⟩, hh1⟩, hm1⟩, hm2⟩, hh2⟩, hd1⟩, hd2⟩ := hc
      obtain ⟨by1, cy1⟩ := digitChar_digitVal hy1
      obtain ⟨by2, cy2⟩ := digitChar_digitVal hy2
      obtain ⟨by3, cy3⟩ := digitChar_digitVal hy3
      obtain ⟨by4, cy4⟩ := digitChar_digitVal hy4
      obtain ⟨bm1, cm1⟩ := digitChar_digitVal hm1
      obtain ⟨bm2, cm2⟩ := digitChar_digitVal hm2
      obtain ⟨bd1, cd1⟩ := digitChar_digitVal hd1
      obtain ⟨bd2, cd2⟩ := digitChar_digitVal hd2
      simp only at h
      split at h
      · cases h
      · rename_i hmonth
        split at h
        · cases h
        · rename_i hday
          simp only [Option.some.injEq] at h
          subst h
          have hdi := daysIn_le (10 * digitVal m1 + digitVal m2)
            (1000 * digitVal y1 + 100 * digitVal y2 + 10 * digitVal y3 + digitVal y4)
          have hsd : s = String.mk [y1, y2, y3, y4, h1, m1, m2, h2, d1, d2] := by
            rw [← hs]
            cases s
            rfl
          refine ⟨?_, by simp only; omega, by simp only; omega, by simp only; omega,
            by simp only; omega, by simp only; omega, rfl, rfl⟩
          rw [hsd]
          simp only [formatDate, digitChar]
          have e1 : (1000 * digitVal y1 + 100 * digitVal y2 + 10 * digitVal y3 + digitVal y4)
              / 1000 % 10 = digitVal y1 := by omega
          have e2 : (1000 * digitVal y1 + 100 * digitVal y2 + 10 * digitVal y3 + digitVal y4)
              / 100 % 10 = digitVal y2 := by omega
          have e3 : (1000 * digitVal y1 + 100 * digitVal y2 + 10 * digitVal y3 + digitVal y4)
              / 10 % 10 = digitVal y3 := by omega
          have e4 : (1000 * digitVal y1 + 100 * digitVal y2 + 10 * digitVal y3 + digitVal y4)
              % 10 = digitVal y4 := by omega
          have e5 : (10 * digitVal m1 + digitVal m2) / 10 % 10 = digitVal m1 := by omega
          have e6 : (10 * digitVal m1 + digitVal m2) % 10 = digitVal m2 := by omega
          have e7 : (10 * digitVal d1 + digitVal d2) / 10 % 10 = digitVal d1 := by omega
          have e8 : (10 * digitVal d1 + digitVal d2) % 10 = digitVal d2 := by omega
          rw [e1, e2, e3, e4, e5, e6, e7, e8, cy1, cy2, cy3, cy4, cm1, cm2, cd1, cd2, hh1, hh2]
    · cases h
  · cases h

theorem digitChar_toNat (n : Nat) : (digitChar n).toNat = 48 + n % 10 := by
  have h : n % 10 < 10 := Nat.mod_lt _ (by decide)
  unfold digitChar
  generalize n % 10 = k at h
  interval_cases k <;> rfl

theorem digitChar_inj {n m : Nat} (h : digitChar n = digitChar m) : n % 10 = m % 10 := by
  have := congrArg Char.toNat h
  rw [digitChar_toNat, digitChar_toNat] at this
  omega

/-- The text determines the time: `IsMidnightOf s` holds of at most one time. -/
theorem isMidnightOf_unique {s : String} {t u : Time} (ht : IsMidnightOf s t)
    (hu : IsMidnightOf s u) : t = u := by
  obtain ⟨hf, hy, hm1, hm2, hd1, hd2, hn, ho⟩ := ht
  obtain ⟨hf2, hy2, hm3, hm4, hd3, hd4, hn2, ho2⟩ := hu
  rw [← hf2] at hf
  have hl := congrArg String.data hf
  simp only [formatDate, List.cons.injEq, and_true, true_and] at hl
  obtain ⟨a1, a2, a3, a4, a5, a6, a7, a8⟩ := hl
  have b1 := digitChar_inj a1
  have b2 := digitChar_inj a2
  have b3 := digitChar_inj a3
  have b4 := digitChar_inj a4
  have b5 := digitChar_inj a5
  have b6 := digitChar_inj a6
  have b7 := digitChar_inj a7
  have b8 := digitChar_inj a8
  cases t
  cases u
  simp only [Time.mk.injEq] at *
  refine ⟨by omega, by omega, by omega, by omega, by omega⟩

theorem floorLog2_step (n k s : Nat) (h1 : 2 ^ k ≤ n) (h2 : n < 2 ^ (k + s + s)) :
    2 ^ (if n >>> (k + s) = 0 then k else k + s) ≤ n
      ∧ n < 2 ^ ((if n >>> (k + s) = 0 then k else k + s) + s) := by
  have hpos : 0 < 2 ^ (k + s) := Nat.pow_pos (by decide)
  rw [Nat.shiftRight_eq_div_pow]
  by_cases h : n / 2 ^ (k + s) = 0
  · rw [if_pos h]
    exact ⟨h1, (Nat.div_eq_zero_iff hpos).mp h⟩
  · rw [if_neg h]
    refine ⟨?_, h2⟩
    by_contra hlt
    exact h ((Nat.div_eq_zero_iff hpos).mpr (by omega))

theorem floorLog2_fold (n : Nat) : ∀ (j k : Nat), 2 ^ k ≤ n → n < 2 ^ (k + 2 ^ (j + 1)) →
    2 ^ (((List.range (j + 1)).reverse.map (fun i => 2 ^ i)).foldl
          (fun k s => if n >>> (k + s) = 0 then k else k + s) k) ≤ n
      ∧ n < 2 ^ ((((List.range (j + 1)).reverse.map (fun i => 2 ^ i)).foldl
          (fun k s => if n >>> (k + s) = 0 then k else k + s) k) + 1) := by
  intro j
  induction j with
  | zero =>
    intro k h1 h2
    have hl : (List.range (0 + 1)).reverse.map (fun i => 2 ^ i) = [1] := by decide
    have he : k + 2 ^ (0 + 1) = k + 1 + 1 := by norm_num [Nat.add_assoc]
    rw [he] at h2
    rw [hl]
    simp only [List.foldl_cons, List.foldl_nil]
    exact floorLog2_step n k 1 h1 h2
  | succ j ih =>
    intro k h1 h2
    have hl : (List.range (j + 1 + 1)).reverse = (j + 1) :: (List.range (j + 1)).reverse := by
      rw [List.range_succ, List.reverse_append]; rfl
    rw [hl]
    simp only [List.map_cons, List.foldl_cons]
    have hp : 2 ^ (j + 1 + 1) = 2 ^ (j + 1) + 2 ^ (j + 1) := by
      rw [pow_succ]; omega
    have := floorLog2_step n k (2 ^ (j + 1)) h1 (by rw [Nat.add_assoc, ← hp]; exact h2)
    exact ih _ this.1 this.2

/-- The binary search finds the position of the highest set bit. -/
theorem floorLog2_spec (n b : Nat) (h0 : 0 < n) (hb : b ≤ 4096) (h : n < 2 ^ b) :
    2 ^ Float64.floorLog2 n ≤ n ∧ n < 2 ^ (Float64.floorLog2 n + 1) := by
  have hl : [2048, 1024, 512, 256, 128, 64, 32, 16, 8, 4, 2, 1]
      = (List.range (11 + 1)).reverse.map (fun i => 2 ^ i) := by decide
  unfold Float64.floorLog2
  rw [hl]
  have he : b ≤ 0 + 2 ^ (11 + 1) := by
    have : (2 : Nat) ^ (11 + 1) = 4096 := by norm_num
    omega
  exact floorLog2_fold n 11 0 (by simpa using h0)
    (lt_of_lt_of_le h (Nat.pow_le_pow_right (by decide) he))

theorem half_shift_ne_zero (s : Nat) (h : s ≠ 0) : (1 <<< s) / 2 ≠ 0 := by
  obtain ⟨j, hj⟩ : ∃ j, s = j + 1 := ⟨s - 1, by omega⟩
  subst hj
  rw [Nat.shiftLeft_eq, Nat.one_mul, Nat.pow_succ, Nat.mul_div_cancel _ (by decide)]
  exact Nat.pos_iff_ne_zero.mp (Nat.pow_pos (by decide))

theorem roundsUp_zero (shift q : Nat) : Float64.roundsUp shift q 0 = false := by
  unfold Float64.roundsUp
  by_cases hs : shift = 0
  · simp [hs]
  · have h2 : ¬ (0 = (1 <<< shift) / 2) := fun h => half_shift_ne_zero shift hs h.symm
    simp [h2]

/-- Rounding is exact on a magnitude that fits 53 significant bits. -/
theorem roundMag_exact (sg : Bool) (n m e : Nat) (hm : m < 2 ^ 53) (he : e ≤ 2045)
    (hn : n = m * 2 ^ e) :
    (Float64.roundMag sg n).expo < 2047 ∧ (Float64.roundMag sg n).magnitude = n
      ∧ (Float64.roundMag sg n).sign = sg := by
  unfold Float64.roundMag
  by_cases hsmall : n < 2 ^ 52
  · rw [if_pos hsmall]
    exact ⟨by simp, by simp [Float64.magnitude], rfl⟩
  · rw [if_neg hsmall]
    have hn0 : 0 < n := by
      have : 0 < 2 ^ 52 := Nat.pow_pos (by decide)
      omega
    have hlt : n < 2 ^ (53 + e) := by
      have h1 : m * 2 ^ e < 2 ^ 53 * 2 ^ e :=
        Nat.mul_lt_mul_of_pos_right hm (Nat.pow_pos (by decide))
      rw [pow_add, hn]; exact h1
    obtain ⟨hk1, hk2⟩ := floorLog2_spec n (53 + e) hn0 (by omega) hlt
    generalize Float64.floorLog2 n = k at hk1 hk2
    have hk52 : 52 ≤ k := by
      by_contra hc
      have : 2 ^ (k + 1) ≤ 2 ^ 52 := Nat.pow_le_pow_right (by decide) (by omega)
      omega
    have hse : k - 52 ≤ e := by
      by_contra hc
      have h1 : 2 ^ (e + 53) ≤ 2 ^ k := Nat.pow_le_pow_right (by decide) (by omega)
      have h2 : m * 2 ^ e < 2 ^ 53 * 2 ^ e :=
        Nat.mul_lt_mul_of_pos_right hm (Nat.pow_pos (by decide))
      have h3 : 2 ^ (e + 53) = 2 ^ 53 * 2 ^ e := by rw [← pow_add]; congr 1; omega
      omega
    have hdvd : 2 ^ (k - 52) ∣ n := by
      rw [hn]; exact Dvd.dvd.mul_left (pow_dvd_pow 2 hse) m
    have hq : n / 2 ^ (k - 52) * 2 ^ (k - 52) = n := Nat.div_mul_cancel hdvd
    have hk : 2 ^ k = 2 ^ 52 * 2 ^ (k - 52) := by rw [← pow_add]; congr 1; omega
    have hk' : 2 ^ (k + 1) = 2 ^ 53 * 2 ^ (k - 52) := by rw [← pow_add]; congr 1; omega
    have hp : 0 < 2 ^ (k - 52) := Nat.pow_pos (by decide)
    have hq1 : 2 ^ 52 ≤ n / 2 ^ (k - 52) := by
      apply Nat.le_of_mul_le_mul_right _ hp
      rw [hq, ← hk]; exact hk1
    have hq2 : n / 2 ^ (k - 52) < 2 ^ 53 := by
      apply Nat.lt_of_mul_lt_mul_right (a := 2 ^ (k - 52))
      rw [hq, ← hk']; exact hk2
    have hq3 : n >>> (k - 52) = n / 2 ^ (k - 52) := Nat.shiftRight_eq_div_pow _ _
    have hr : n - (n >>> (k - 52)) <<< (k - 52) = 0 := by
      rw [hq3, Nat.shiftLeft_eq, hq]; exact Nat.sub_self n
    have hne : ¬ (n >>> (k - 52) = 2 ^ 53) := by rw [hq3]; exact Nat.ne_of_lt hq2
    have hlt2 : k - 52 + 1 < 2047 :=
      Nat.lt_of_le_of_lt (Nat.succ_le_succ (le_trans hse he)) (by decide)
    unfold Float64.roundNormal
    rw [hr, roundsUp_zero]
    simp only [Bool.false_eq_true, if_false]
    unfold Float64.pack
    rw [if_neg hne, if_neg (Nat.not_le.mpr hlt2)]
    refine ⟨hlt2, ?_, rfl⟩
    have hexp : k - 52 + 1 ≠ 0 := Nat.succ_ne_zero _
    simp only [Float64.magnitude, hexp, if_false, Nat.add_sub_cancel]
    rw [Nat.shiftLeft_eq, hq3, Nat.add_sub_cancel' hq1, hq]

/-- Addition of finite values is exact whenever the exact sum is the value of
a finite binary64 number. -/
theorem add_exact (x y : Float64) (hx : x.isFinite = true) (hy : y.isFinite = true)
    (hrep : Representable (x.toInt + y.toInt).natAbs) :
    (x.add y).isFinite = true ∧ (x.add y).toInt = x.toInt + y.toInt := by
  simp only [Float64.isFinite, decide_eq_true_eq] at hx hy
  have hxn : x.isNaN = false := by simp [Float64.isNaN]; omega
  have hyn : y.isNaN = false := by simp [Float64.isNaN]; omega
  have hxi : x.isInf = false := by simp [Float64.isInf]; omega
  have hyi : y.isInf = false := by simp [Float64.isInf]; omega
  unfold Float64.add
  simp only [hxn, hyn, hxi, hyi, Bool.or_false, Bool.false_eq_true, if_false]
  generalize x.toInt + y.toInt = s at hrep ⊢
  by_cases hs : s = 0
  · simp only [hs, if_true]
    exact ⟨by simp [Float64.isFinite], by simp [Float64.toInt, Float64.magnitude]⟩
  · simp only [hs, if_false]
    obtain ⟨m, e, hm, he, hn⟩ := hrep
    obtain ⟨h1, h2, h3⟩ := roundMag_exact (decide (s < 0)) s.natAbs m e hm he hn
    refine ⟨by simp [Float64.isFinite, h1], ?_⟩
    unfold Float64.toInt
    rw [h2, h3]
    by_cases hneg : s < 0
    · simp only [hneg, decide_True, if_true]; omega
    · simp only [hneg, decide_False, Bool.false_eq_true, if_false]; omega

theorem foldl_add_exact : ∀ (l : List Expense) (acc : Float64), acc.isFinite = true →
    (∀ e ∈ l, e.Amount.isFinite = true) → PartialSumsExact acc.toInt l →
    ((l.map (fun e => e.Amount)).foldl Float64.add acc).isFinite = true
      ∧ ((l.map (fun e => e.Amount)).foldl Float64.add acc).toInt = acc.toInt + exactSum l := by
  intro l
  induction l with
  | nil =>
    intro acc hacc _ _
    exact ⟨hacc, by simp [exactSum]⟩
  | cons e rest ih =>
    intro acc hacc hfin hex
    obtain ⟨hrep, hrest⟩ := hex
    obtain ⟨hf, hv⟩ := add_exact acc e.Amount hacc (hfin e (List.mem_cons_self _ _)) hrep
    simp only [List.map_cons, List.foldl_cons]
    have := ih (acc.add e.Amount) hf (fun x hx => hfin x (List.mem_cons_of_mem _ hx))
      (by rw [hv]; exact hrest)
    refine ⟨this.1, ?_⟩
    rw [this.2, hv]
    simp only [exactSum, List.map_cons, List.sum_cons]
    omega

theorem sumAmounts_exact (l : List Expense) (hfin : ∀ e ∈ l, e.Amount.isFinite = true)
    (hex : PartialSumsExact 0 l) :
    (sumAmounts l).isFinite = true ∧ (sumAmounts l).toInt = exactSum l := by
  have h := foldl_add_exact l Float64.posZero rfl hfin hex
  refine ⟨h.1, ?_⟩
  have h2 := h.2
  have hz : Float64.posZero.toInt = 0 := rfl
  rw [hz, zero_add] at h2
  exact h2

/-! ## Theorems -/

/-- C10: for every file content, every description and every amount `<= 0`,
`add` prints the amount validation error and returns the file as it was,
whatever the file holds (also content that could not be loaded), so storage is
not consulted and no identifier is assigned. -/
theorem add_rejects_nonpositive_amount (disk : Disk) (description : String) (amount : Float64)
    (now : Time) (h : amount.leZero = true) :
    addCmd description amount now disk = (disk, .amountNotPositive) := by
  simp [addCmd, h]

theorem add_rejects_nonpositive_amount_witness :
    Float64.posZero.leZero = true
      ∧ addCmd "Lunch" Float64.posZero (noon 2024 3 5) .malformed
          = (.malformed, .amountNotPositive) :=
  ⟨by decide, add_rejects_nonpositive_amount .malformed "Lunch" Float64.posZero (noon 2024 3 5)
    (by decide)⟩

/-- C4: for every stored set and every identifier that matches no record,
`delete` prints the not-found message and returns the file unchanged. -/
theorem delete_unknown_id (disk : Disk) (es : List Expense) (id : Int)
    (hload : loadExpenses disk = some es) (hid : ∀ e ∈ es, e.ID ≠ id) :
    deleteCmd id disk = (disk, .notFound id) := by
  simp [deleteCmd, hload, findID_eq_none.mpr hid]

theorem delete_unknown_id_witness :
    deleteCmd 7 (.records [⟨1, noon 2024 3 5, "Lunch", twenty⟩])
      = (.records [⟨1, noon 2024 3 5, "Lunch", twenty⟩], .notFound 7) :=
  delete_unknown_id _ [⟨1, noon 2024 3 5, "Lunch", twenty⟩] 7 (by decide) (by decide)

/-- C3: for every stored set and every identifier that matches some record,
`delete` prints the success message and leaves the file holding the old set
without the first record that has this identifier, every other record
unchanged and in its original order; the length drops by exactly one. -/
theorem delete_existing_id (disk : Disk) (es : List Expense) (id : Int)
    (hload : loadExpenses disk = some es) (hid : ∃ e ∈ es, e.ID = id) :
    ∃ pre e post, es = pre ++ e :: post ∧ e.ID = id ∧ (∀ x ∈ pre, x.ID ≠ id)
      ∧ deleteCmd id disk = (.records (pre ++ post), .deleted)
      ∧ loadExpenses (deleteCmd id disk).1 = some (pre ++ post)
      ∧ (pre ++ post).length + 1 = es.length := by
  obtain ⟨i, hi⟩ := findID_isSome hid
  obtain ⟨pre, e, post, hes, hlen, he, hpre⟩ := findID_split hi
  have hdec := load_decodable hload
  have hdec2 : jsonDecodable (pre ++ post) = true := by
    rw [decodable_iff] at hdec ⊢
    intro x hx
    apply hdec
    rw [hes]
    rcases List.mem_append.mp hx with h | h
    · exact List.mem_append_left _ h
    · exact List.mem_append_right _ (List.mem_cons_of_mem _ h)
  have hcmd : deleteCmd id disk = (.records (pre ++ post), .deleted) := by
    have htd : es.take i ++ es.drop (i + 1) = pre ++ post := by
      rw [hes, ← hlen]; exact take_drop_split pre post e
    simp [deleteCmd, hload, hi, htd, saveExpenses, decodable_encodable hdec2]
  refine ⟨pre, e, post, hes, he, hpre, hcmd, ?_, ?_⟩
  · rw [hcmd]; exact load_records hdec2
  · rw [hes]
    simp only [List.length_append, List.length_cons]
    omega

theorem delete_existing_id_witness :
    ∃ pre e post,
      [(⟨1, noon 2024 3 5, "a", ten⟩ : Expense), ⟨2, noon 2024 3 6, "b", fifteen⟩,
          ⟨3, noon 2024 3 7, "c", twenty⟩] = pre ++ e :: post
      ∧ e.ID = 2 ∧ (∀ x ∈ pre, x.ID ≠ 2)
      ∧ deleteCmd 2 (.records [⟨1, noon 2024 3 5, "a", ten⟩, ⟨2, noon 2024 3 6, "b", fifteen⟩,
          ⟨3, noon 2024 3 7, "c", twenty⟩]) = (.records (pre ++ post), .deleted)
      ∧ loadExpenses (deleteCmd 2 (.records [⟨1, noon 2024 3 5, "a", ten⟩,
          ⟨2, noon 2024 3 6, "b", fifteen⟩, ⟨3, noon 2024 3 7, "c", twenty⟩])).1
          = some (pre ++ post)
      ∧ (pre ++ post).length + 1
          = [(⟨1, noon 2024 3 5, "a", ten⟩ : Expense), ⟨2, noon 2024 3 6, "b", fifteen⟩,
              ⟨3, noon 2024 3 7, "c", twenty⟩].length :=
  delete_existing_id _ _ 2 (by decide) ⟨⟨2, noon 2024 3 6, "b", fifteen⟩, by decide, rfl⟩

/-- C1 (as amended): for every stored set whose identifiers are positive and
below the largest `int`, every description and every finite amount `> 0`,
`add` leaves the file holding the old records, unchanged and in order,
followed by one new record with the given description and amount, and reports
the identifier (largest old identifier) + 1, or 1 for an empty set.  That
identifier exceeds every old one, and as long as it is not the largest `int`
the next such `add` reports the identifier after it. -/
theorem add_contract (disk : Disk) (es : List Expense) (description : String)
    (amount : Float64) (now : Time) (hload : loadExpenses disk = some es)
    (hpos : ∀ e ∈ es, 0 < e.ID) (hgt : amount.gtZero = true)
    (hfin : amount.isFinite = true) (hmax : ∀ e ∈ es, e.ID ≠ maxInt) :
    AddContract es description amount now (addCmd description amount now disk)
      ∧ ∀ id, (addCmd description amount now disk).2 = .added id →
          (∀ e ∈ es, e.ID < id)
          ∧ (id ≠ maxInt → ∀ (d2 : String) (a2 : Float64) (now2 : Time),
              a2.gtZero = true → a2.isFinite = true →
              (addCmd d2 a2 now2 (addCmd description amount now disk).1).2 = .added (id + 1)) := by
  have hdec := load_decodable hload
  have hlt := maxID_lt_maxInt es hdec hmax
  have hnext := nextID_eq es hlt
  have h0 := maxID_nonneg es
  have hcmd := addCmd_saved disk es description amount now hload (gtZero_not_leZero hgt) hfin
  have hdec2 : jsonDecodable (es ++ [⟨nextID es, now, description, amount⟩]) = true :=
    decodable_append_new es _ hdec hfin (wrapInt_range _).1 (wrapInt_range _).2
  have hload2 : loadExpenses (addCmd description amount now disk).1
      = some (es ++ [⟨nextID es, now, description, amount⟩]) := by
    rw [hcmd]; exact load_records hdec2
  refine ⟨⟨nextID es, by rw [hcmd], hload2, ?_, ?_⟩, ?_⟩
  · intro hnil
    subst hnil
    decide
  · intro hne
    rcases maxID_eq es with hz | ⟨e, he, hid⟩
    · obtain ⟨e, he⟩ := List.exists_mem_of_ne_nil es hne
      have := hpos e he
      have := maxID_ge es e he
      omega
    · refine ⟨e, he, ?_, ?_⟩
      · intro x hx
        rw [hid]; exact maxID_ge es x hx
      · rw [hid]; exact hnext
  · intro id hid
    rw [hcmd] at hid
    simp only [Output.added.injEq] at hid
    subst hid
    refine ⟨?_, ?_⟩
    · intro e he
      have := maxID_ge es e he
      omega
    · intro hne d2 a2 now2 hgt2 hfin2
      rw [addCmd_saved _ _ d2 a2 now2 hload2 (gtZero_not_leZero hgt2) hfin2]
      simp only [Output.added.injEq]
      have hm : maxID (es ++ [⟨nextID es, now, description, amount⟩]) = nextID es := by
        rw [maxID_append]
        simp only [hnext]
        rw [if_pos (by omega)]
      rw [nextID_eq _ (by rw [hm]; omega), hm]

theorem add_contract_witness :
    AddContract [] "Lunch" twenty (noon 2024 3 5) (addCmd "Lunch" twenty (noon 2024 3 5) .absent)
      ∧ ∀ id, (addCmd "Lunch" twenty (noon 2024 3 5) .absent).2 = .added id →
          (∀ e ∈ ([] : List Expense), e.ID < id)
          ∧ (id ≠ maxInt → ∀ (d2 : String) (a2 : Float64) (now2 : Time),
              a2.gtZero = true → a2.isFinite = true →
              (addCmd d2 a2 now2 (addCmd "Lunch" twenty (noon 2024 3 5) .absent).1).2
                = .added (id + 1)) :=
  add_contract .absent [] "Lunch" twenty (noon 2024 3 5) (by decide) (by decide) (by decide)
    (by decide) (by decide)

/-- C1 (as stated) fails on the code in two ways.  The amount `+Inf` is `> 0`,
passes the check of `add`, cannot be encoded, and `add` leaves an empty file
and reports a save error.  With a stored identifier equal to the largest
`int`, `newID++` wraps and the new record gets the smallest `int`. -/
theorem add_contract_counterexample :
    (Float64.posInf.gtZero = true
      ∧ (∀ e ∈ [(⟨1, noon 2024 3 5, "Lunch", twenty⟩ : Expense)], 0 < e.ID)
      ∧ addCmd "Dinner" Float64.posInf (noon 2024 3 6)
          (.records [⟨1, noon 2024 3 5, "Lunch", twenty⟩]) = (.blank, .saveFailed)
      ∧ ¬ AddContract [⟨1, noon 2024 3 5, "Lunch", twenty⟩] "Dinner" Float64.posInf
          (noon 2024 3 6)
          (addCmd "Dinner" Float64.posInf (noon 2024 3 6)
            (.records [⟨1, noon 2024 3 5, "Lunch", twenty⟩])))
    ∧ (twenty.gtZero = true
      ∧ (∀ e ∈ [(⟨maxInt, noon 2024 3 5, "Lunch", twenty⟩ : Expense)], 0 < e.ID)
      ∧ addCmd "Dinner" twenty (noon 2024 3 6)
          (.records [⟨maxInt, noon 2024 3 5, "Lunch", twenty⟩])
          = (.records [⟨maxInt, noon 2024 3 5, "Lunch", twenty⟩,
              ⟨minInt, noon 2024 3 6, "Dinner", twenty⟩], .added minInt)
      ∧ ¬ AddContract [⟨maxInt, noon 2024 3 5, "Lunch", twenty⟩] "Dinner" twenty
          (noon 2024 3 6)
          (addCmd "Dinner" twenty (noon 2024 3 6)
            (.records [⟨maxInt, noon 2024 3 5, "Lunch", twenty⟩]))) := by
  have h1 : addCmd "Dinner" Float64.posInf (noon 2024 3 6)
      (.records [⟨1, noon 2024 3 5, "Lunch", twenty⟩]) = (.blank, .saveFailed) := by decide
  have h2 : addCmd "Dinner" twenty (noon 2024 3 6)
      (.records [⟨maxInt, noon 2024 3 5, "Lunch", twenty⟩])
      = (.records [⟨maxInt, noon 2024 3 5, "Lunch", twenty⟩,
          ⟨minInt, noon 2024 3 6, "Dinner", twenty⟩], .added minInt) := by decide
  refine ⟨⟨by decide, by decide, h1, ?_⟩, by decide, by decide, h2, ?_⟩
  · rintro ⟨id, hout, -⟩
    rw [h1] at hout
    cases hout
  · rintro ⟨id, hout, -, -, hmax⟩
    rw [h2] at hout
    simp only [Output.added.injEq] at hout
    obtain ⟨e, he, -, hid⟩ := hmax (by simp)
    simp only [List.mem_singleton] at he
    subst he
    subst hout
    revert hid
    decide

/-- C2 (as amended): after any sequence of fewer than `2^63 - 1` invocations
of `add` and `delete` on an initially absent file, the stored identifiers are
pairwise distinct, a further `add` with a finite amount `> 0` succeeds, and the
identifier a further `add` reports is larger than, hence different from, the
identifier of every record still stored.  Nothing is stated about identifiers
of records that have since been deleted. -/
theorem add_id_exceeds_stored (ops : List Op) (description : String) (amount : Float64)
    (now : Time) (hlen : (ops.length : Int) < maxInt) :
    ∃ es, loadExpenses (run .absent ops).1 = some es
      ∧ (es.map (fun e => e.ID)).Nodup
      ∧ (∀ id, (addCmd description amount now (run .absent ops).1).2 = .added id →
          ∀ e ∈ es, e.ID < id)
      ∧ (amount.gtZero = true → amount.isFinite = true →
          ∃ id, (addCmd description amount now (run .absent ops).1).2 = .added id) := by
  have h0 : IdsWithin 0 .absent := ⟨[], rfl, by simp, by simp⟩
  have h := idsWithin_run ops 0 .absent h0 (le_refl 0) (by omega)
  obtain ⟨es, hload, hnd, hb⟩ := h
  refine ⟨es, hload, hnd, ?_, ?_⟩
  · intro id hid e he
    rcases addCmd_cases _ es description amount now hload with h | h | ⟨-, -, h⟩
    · rw [h] at hid; cases hid
    · rw [h] at hid; cases hid
    · rw [h] at hid
      simp only [Output.added.injEq] at hid
      subst hid
      have hmle : maxID es ≤ 0 + ops.length :=
        maxID_le_of_bound es _ (by omega) (fun e he => (hb e he).2)
      rw [nextID_eq es (by omega)]
      have := maxID_ge es e he
      omega
  · intro hgt hfin
    exact ⟨nextID es, by
      rw [addCmd_saved _ es description amount now hload (gtZero_not_leZero hgt) hfin]⟩

theorem add_id_exceeds_stored_witness :
    (∃ es, loadExpenses (run .absent
          [.add "a" one (noon 2024 3 5), .add "b" ten (noon 2024 3 6), .delete 1]).1 = some es
      ∧ (es.map (fun e => e.ID)).Nodup
      ∧ (∀ id, (addCmd "c" one (noon 2024 3 7) (run .absent
            [.add "a" one (noon 2024 3 5), .add "b" ten (noon 2024 3 6), .delete 1]).1).2
            = .added id → ∀ e ∈ es, e.ID < id)
      ∧ (one.gtZero = true → one.isFinite = true →
          ∃ id, (addCmd "c" one (noon 2024 3 7) (run .absent
            [.add "a" one (noon 2024 3 5), .add "b" ten (noon 2024 3 6), .delete 1]).1).2
            = .added id))
    ∧ loadExpenses (run .absent
          [.add "a" one (noon 2024 3 5), .add "b" ten (noon 2024 3 6), .delete 1]).1
        = some [⟨2, noon 2024 3 6, "b", ten⟩]
    ∧ (addCmd "c" one (noon 2024 3 7) (run .absent
          [.add "a" one (noon 2024 3 5), .add "b" ten (noon 2024 3 6), .delete 1]).1).2
        = .added 3 :=
  ⟨add_id_exceeds_stored
      [.add "a" one (noon 2024 3 5), .add "b" ten (noon 2024 3 6), .delete 1] "c" one
      (noon 2024 3 7) (by decide),
    by decide, by decide⟩

/-- C2 (as stated) fails on the code: on an absent file, `add`, then `delete`
of the identifier just assigned, then `add` again assigns identifier 1 twice. -/
theorem id_reused_after_delete :
    (run .absent [.add "a" one (noon 2024 3 5), .delete 1, .add "b" one (noon 2024 3 6)]).2
        = [.added 1, .deleted, .added 1]
      ∧ ¬ (assignedIDs (run .absent
            [.add "a" one (noon 2024 3 5), .delete 1, .add "b" one (noon 2024 3 6)]).2).Nodup := by
  decide

/-- C5: for every stored set and every `update` of an existing identifier in
which a supplied amount is `<= 0` or a supplied date is rejected by the date
parser, the call prints the amount or the date error and the file is returned
as it was, so the record keeps its description, amount and date, whatever
other fields were supplied, and the rest of the stored set is unchanged. -/
theorem update_rejected_keeps_store (disk : Disk) (es : List Expense) (id : Int)
    (description : Option String) (amount : Option Float64) (date : Option String)
    (hload : loadExpenses disk = some es) (hid : ∃ e ∈ es, e.ID = id)
    (hbad : (∃ a, amount = some a ∧ a.leZero = true)
      ∨ (∃ s, date = some s ∧ parseDate s = none)) :
    ((updateCmd id description amount date disk).2 = .amountNotPositive
        ∨ (updateCmd id description amount date disk).2 = .invalidDate)
      ∧ (updateCmd id description amount date disk).1 = disk
      ∧ loadExpenses (updateCmd id description amount date disk).1 = some es := by
  obtain ⟨pre, e, post, hes, he, hpre⟩ := exists_split_of_id hid
  subst hes
  have hb : badAmount amount = true ∨ badDate date = true := by
    rcases hbad with ⟨a, rfl, ha⟩ | ⟨s, rfl, hs⟩
    · left; simpa [badAmount] using ha
    · right; simp [badDate, hs]
  have hnf : noFieldSupplied description amount date = false := by
    rcases hb with h | h
    · exact badAmount_supplied h
    · exact badDate_supplied h
  rw [updateCmd_found disk id description amount date pre post e hload he hpre]
  cases hba : badAmount amount with
  | true => simp [hnf, hload]
  | false =>
    have hbd : badDate date = true := by
      rcases hb with h | h
      · rw [hba] at h; cases h
      · exact h
    simp [hnf, hbd, hload]

theorem update_rejected_keeps_store_witness :
    ((updateCmd 1 (some "Dinner") (some ten) (some "2024-02-30")
          (.records [⟨1, noon 2024 3 5, "Lunch", twenty⟩])).2 = .amountNotPositive
        ∨ (updateCmd 1 (some "Dinner") (some ten) (some "2024-02-30")
          (.records [⟨1, noon 2024 3 5, "Lunch", twenty⟩])).2 = .invalidDate)
      ∧ (updateCmd 1 (some "Dinner") (some ten) (some "2024-02-30")
          (.records [⟨1, noon 2024 3 5, "Lunch", twenty⟩])).1
          = .records [⟨1, noon 2024 3 5, "Lunch", twenty⟩]
      ∧ loadExpenses (updateCmd 1 (some "Dinner") (some ten) (some "2024-02-30")
          (.records [⟨1, noon 2024 3 5, "Lunch", twenty⟩])).1
          = some [⟨1, noon 2024 3 5, "Lunch", twenty⟩] :=
  update_rejected_keeps_store (.records [⟨1, noon 2024 3 5, "Lunch", twenty⟩])
    [⟨1, noon 2024 3 5, "Lunch", twenty⟩] 1 (some "Dinner") (some ten) (some "2024-02-30")
    (by decide) ⟨⟨1, noon 2024 3 5, "Lunch", twenty⟩, by decide, rfl⟩
    (Or.inr ⟨"2024-02-30", rfl, by decide⟩)

/-- C6: for every stored set and every `update` of identifier `id` that prints
the success message, the stored set afterwards is the old one with the first
record of identifier `id` replaced in place: same length and order, every other
record unchanged, and in that record the identifier is kept, each supplied
field among description, amount and date takes the supplied value and each
field not supplied keeps its prior value.  For the date, the supplied text is
the `YYYY-MM-DD` writing of the stored calendar day, and the stored time is
midnight UTC of that day. -/
theorem update_success_frame (disk : Disk) (es : List Expense) (id : Int)
    (description : Option String) (amount : Option Float64) (date : Option String)
    (hload : loadExpenses disk = some es)
    (hok : (updateCmd id description amount date disk).2 = .updated) :
    ∃ pre e post e1, es = pre ++ e :: post ∧ e.ID = id ∧ (∀ x ∈ pre, x.ID ≠ id)
      ∧ loadExpenses (updateCmd id description amount date disk).1 = some (pre ++ e1 :: post)
      ∧ (pre ++ e1 :: post).length = es.length
      ∧ e1.ID = e.ID
      ∧ (∀ d, description = some d → e1.Description = d)
      ∧ (description = none → e1.Description = e.Description)
      ∧ (∀ a, amount = some a → e1.Amount = a)
      ∧ (amount = none → e1.Amount = e.Amount)
      ∧ (∀ s, date = some s → parseDate s = some e1.Date ∧ IsMidnightOf s e1.Date)
      ∧ (date = none → e1.Date = e.Date) := by
  have hid : ∃ e ∈ es, e.ID = id := by
    by_contra hne
    push_neg at hne
    rw [updateCmd_unknown disk es id description amount date hload hne] at hok
    cases hok
  obtain ⟨pre, e, post, hes, he, hpre⟩ := exists_split_of_id hid
  subst hes
  have hcmd := updateCmd_found disk id description amount date pre post e hload he hpre
  rw [hcmd] at hok ⊢
  cases hnf : noFieldSupplied description amount date with
  | true => simp [hnf] at hok
  | false =>
  cases hba : badAmount amount with
  | true => simp [hnf, hba] at hok
  | false =>
  cases hbd : badDate date with
  | true => simp [hnf, hba, hbd] at hok
  | false =>
  cases henc : jsonEncodable (pre ++ applyFields e description amount date :: post) with
  | false => simp [hnf, hba, hbd, henc] at hok
  | true =>
    have hdec := decodable_replace pre post e (applyFields e description amount date)
      (load_decodable hload) rfl (encodable_mid pre post _ henc)
    refine ⟨pre, e, post, applyFields e description amount date, rfl, he, hpre, ?_, ?_, rfl,
      ?_, ?_, ?_, ?_, ?_, ?_⟩
    · simp [hnf, hba, hbd, henc, load_records hdec]
    · simp
    · intro d hd; subst hd; rfl
    · intro hd; subst hd; rfl
    · intro a ha; subst ha; rfl
    · intro ha; subst ha; rfl
    · intro s hs
      subst hs
      cases hp : parseDate s with
      | none => simp [badDate, hp] at hbd
      | some d =>
        have hd : (applyFields e description amount (some s)).Date = d := by
          simp [applyFields, hp]
        rw [hd]
        exact ⟨rfl, parseDate_sound hp⟩
    · intro hd; subst hd; rfl

theorem update_success_frame_witness :
    (∃ pre e post e1,
      [(⟨1, noon 2024 3 5, "Lunch", twenty⟩ : Expense), ⟨2, noon 2024 3 6, "Tea", ten⟩]
          = pre ++ e :: post
      ∧ e.ID = 2 ∧ (∀ x ∈ pre, x.ID ≠ 2)
      ∧ loadExpenses (updateCmd 2 (some "") none (some "2024-02-29")
          (.records [⟨1, noon 2024 3 5, "Lunch", twenty⟩, ⟨2, noon 2024 3 6, "Tea", ten⟩])).1
          = some (pre ++ e1 :: post)
      ∧ (pre ++ e1 :: post).length
          = [(⟨1, noon 2024 3 5, "Lunch", twenty⟩ : Expense), ⟨2, noon 2024 3 6, "Tea", ten⟩].length
      ∧ e1.ID = e.ID
      ∧ (∀ d, some "" = some d → e1.Description = d)
      ∧ ((some "" : Option String) = none → e1.Description = e.Description)
      ∧ (∀ a, (none : Option Float64) = some a → e1.Amount = a)
      ∧ ((none : Option Float64) = none → e1.Amount = e.Amount)
      ∧ (∀ s, some "2024-02-29" = some s → parseDate s = some e1.Date ∧ IsMidnightOf s e1.Date)
      ∧ ((some "2024-02-29" : Option String) = none → e1.Date = e.Date))
    ∧ updateCmd 2 (some "") none (some "2024-02-29")
        (.records [⟨1, noon 2024 3 5, "Lunch", twenty⟩, ⟨2, noon 2024 3 6, "Tea", ten⟩])
      = (.records [⟨1, noon 2024 3 5, "Lunch", twenty⟩, ⟨2, ⟨2024, 2, 29, 0, 0⟩, "", ten⟩],
          .updated) :=
  ⟨update_success_frame
    (.records [⟨1, noon 2024 3 5, "Lunch", twenty⟩, ⟨2, noon 2024 3 6, "Tea", ten⟩])
    [⟨1, noon 2024 3 5, "Lunch", twenty⟩, ⟨2, noon 2024 3 6, "Tea", ten⟩] 2 (some "") none
    (some "2024-02-29") (by decide) (by decide), by decide⟩

/-- C9 (as amended): for every stored set the outcome of `update` is decided
as follows.  It prints the not-found message when the identifier matches no
record, whichever fields were supplied; otherwise the no-fields validation
error when none of description, amount, date was supplied; otherwise the
amount validation error when a supplied amount is `<= 0`; otherwise the date
error when a supplied date is rejected by the date parser.  It prints the
success message if and only if none of these four conditions holds and a
supplied amount is finite (neither NaN nor an infinity). -/
theorem update_outcome (disk : Disk) (es : List Expense) (id : Int)
    (description : Option String) (amount : Option Float64) (date : Option String)
    (hload : loadExpenses disk = some es) :
    ((∀ e ∈ es, e.ID ≠ id) → (updateCmd id description amount date disk).2 = .notFound id)
      ∧ ((∃ e ∈ es, e.ID = id) → noFieldSupplied description amount date = true →
          (updateCmd id description amount date disk).2 = .noFields)
      ∧ ((∃ e ∈ es, e.ID = id) → noFieldSupplied description amount date = false →
          badAmount amount = true →
          (updateCmd id description amount date disk).2 = .amountNotPositive)
      ∧ ((∃ e ∈ es, e.ID = id) → noFieldSupplied description amount date = false →
          badAmount amount = false → badDate date = true →
          (updateCmd id description amount date disk).2 = .invalidDate)
      ∧ ((updateCmd id description amount date disk).2 = .updated ↔
          (∃ e ∈ es, e.ID = id) ∧ noFieldSupplied description amount date = false
            ∧ badAmount amount = false ∧ badDate date = false
            ∧ nonFiniteAmount amount = false) := by
  by_cases hid : ∃ e ∈ es, e.ID = id
  · obtain ⟨pre, e, post, hes, he, hpre⟩ := exists_split_of_id hid
    subst hes
    have hcmd := updateCmd_found disk id description amount date pre post e hload he hpre
    have henc := encodable_applyFields_iff pre post e description amount date
      (load_decodable hload)
    refine ⟨?_, ?_, ?_, ?_, ?_⟩
    · intro hne
      obtain ⟨x, hx, hxid⟩ := hid
      exact absurd hxid (hne x hx)
    · intro _ h1
      rw [hcmd]; simp [h1]
    · intro _ h1 h2
      rw [hcmd]; simp [h1, h2]
    · intro _ h1 h2 h3
      rw [hcmd]; simp [h1, h2, h3]
    · rw [hcmd]
      cases hnf : noFieldSupplied description amount date <;>
        cases hba : badAmount amount <;> cases hbd : badDate date <;>
        cases hnfa : nonFiniteAmount amount <;>
        cases hje : jsonEncodable (pre ++ applyFields e description amount date :: post) <;>
        simp_all
  · push_neg at hid
    have hcmd := updateCmd_unknown disk es id description amount date hload hid
    refine ⟨fun _ => by rw [hcmd], ?_, ?_, ?_, ?_⟩
    · intro ⟨x, hx, hxid⟩
      exact absurd hxid (hid x hx)
    · intro ⟨x, hx, hxid⟩
      exact absurd hxid (hid x hx)
    · intro ⟨x, hx, hxid⟩
      exact absurd hxid (hid x hx)
    · rw [hcmd]
      constructor
      · intro h; cases h
      · rintro ⟨⟨x, hx, hxid⟩, -⟩
        exact absurd hxid (hid x hx)

theorem update_outcome_witness :
    (updateCmd 1 none (some ten) none (.records [⟨1, noon 2024 3 5, "Lunch", twenty⟩])).2
        = .updated
      ∧ (updateCmd 1 none (some Float64.posZero) (some "x")
          (.records [⟨1, noon 2024 3 5, "Lunch", twenty⟩])).2 = .amountNotPositive :=
  ⟨(update_outcome (.records [⟨1, noon 2024 3 5, "Lunch", twenty⟩])
      [⟨1, noon 2024 3 5, "Lunch", twenty⟩] 1 none (some ten) none (by decide)).2.2.2.2.mpr
      (by decide),
   (update_outcome (.records [⟨1, noon 2024 3 5, "Lunch", twenty⟩])
      [⟨1, noon 2024 3 5, "Lunch", twenty⟩] 1 none (some Float64.posZero) (some "x")
      (by decide)).2.2.1 (by decide) (by decide) (by decide)⟩

/-- C9 (as stated) fails on the code: an `update` of an existing record with
the amount `+Inf` meets none of the four failure conditions, yet it does not
succeed: the new list cannot be encoded, the call prints a save error and
leaves an empty file. -/
theorem update_outcome_counterexample :
    (∃ e ∈ [(⟨1, noon 2024 3 5, "Lunch", twenty⟩ : Expense)], e.ID = 1)
      ∧ noFieldSupplied none (some Float64.posInf) none = false
      ∧ badAmount (some Float64.posInf) = false
      ∧ badDate none = false
      ∧ updateCmd 1 none (some Float64.posInf) none
          (.records [⟨1, noon 2024 3 5, "Lunch", twenty⟩]) = (.blank, .saveFailed)
      ∧ (updateCmd 1 none (some Float64.posInf) none
          (.records [⟨1, noon 2024 3 5, "Lunch", twenty⟩])).2 ≠ .updated := by
  decide

/-- C8 (as amended): if the stored set has pairwise distinct, positive
identifiers and every amount strictly greater than zero, then after any
`delete` or `update` call, successful or failed and with any arguments, and
after any `add` call made while no stored identifier is the largest `int`, the
file again loads to a set with pairwise distinct, positive identifiers and
every amount strictly greater than zero. -/
theorem invariant_preserved (disk : Disk) (es : List Expense)
    (hload : loadExpenses disk = some es) (hinv : StoreInvariant es) :
    (∀ id, ∃ es1, loadExpenses (deleteCmd id disk).1 = some es1 ∧ StoreInvariant es1)
      ∧ (∀ id description amount date,
          ∃ es1, loadExpenses (updateCmd id description amount date disk).1 = some es1
            ∧ StoreInvariant es1)
      ∧ (∀ description amount now, (∀ e ∈ es, e.ID ≠ maxInt) →
          ∃ es1, loadExpenses (addCmd description amount now disk).1 = some es1
            ∧ StoreInvariant es1) := by
  have hdec := load_decodable hload
  refine ⟨?_, ?_, ?_⟩
  · intro id
    rcases deleteCmd_cases disk es id hload with h | ⟨pre, e, post, hes, -, h, hl⟩
    · rw [h]; exact ⟨es, hload, hinv⟩
    · rw [h]
      subst hes
      exact ⟨_, hl, storeInvariant_remove pre post e hinv⟩
  · intro id description amount date
    by_cases hid : ∃ e ∈ es, e.ID = id
    · obtain ⟨pre, e, post, hes, he, hpre⟩ := exists_split_of_id hid
      subst hes
      rw [updateCmd_found disk id description amount date pre post e hload he hpre]
      cases hnf : noFieldSupplied description amount date with
      | true => exact ⟨_, by simpa using hload, hinv⟩
      | false =>
      cases hba : badAmount amount with
      | true => exact ⟨_, by simpa using hload, hinv⟩
      | false =>
      cases hbd : badDate date with
      | true => exact ⟨_, by simpa using hload, hinv⟩
      | false =>
      cases henc : jsonEncodable (pre ++ applyFields e description amount date :: post) with
      | false => exact ⟨[], by simp [loadExpenses], storeInvariant_nil⟩
      | true =>
        have hfin := encodable_mid pre post _ henc
        have hgt : (applyFields e description amount date).Amount.gtZero = true := by
          cases amount with
          | none =>
            exact (hinv.2 e (List.mem_append_right _ (List.mem_cons_self _ _))).2
          | some a =>
            apply not_leZero_finite_gtZero
            · simpa [badAmount] using hba
            · exact hfin
        refine ⟨pre ++ applyFields e description amount date :: post, ?_,
          storeInvariant_replace pre post e (applyFields e description amount date) hinv rfl hgt⟩
        simp only [Bool.false_eq_true, if_false, if_true]
        exact load_records
          (decodable_replace pre post e (applyFields e description amount date) hdec rfl hfin)
    · push_neg at hid
      rw [updateCmd_unknown disk es id description amount date hload hid]
      exact ⟨es, hload, hinv⟩
  · intro description amount now hmax
    rcases addCmd_cases disk es description amount now hload with h | h | ⟨hle, hfin, h⟩
    · rw [h]; exact ⟨es, hload, hinv⟩
    · rw [h]; exact ⟨[], rfl, storeInvariant_nil⟩
    · rw [h]
      have hlt := maxID_lt_maxInt es hdec hmax
      have hnext := nextID_eq es hlt
      have h0 := maxID_nonneg es
      refine ⟨_, load_records (decodable_append_new es _ hdec hfin (wrapInt_range _).1
        (wrapInt_range _).2), ?_⟩
      apply storeInvariant_append es _ hinv
      · intro x hx
        have := maxID_ge es x hx
        simp only [hnext]
        omega
      · simp only [hnext]; omega
      · exact not_leZero_finite_gtZero hle hfin

theorem invariant_preserved_witness :
    (∀ id, ∃ es1, loadExpenses (deleteCmd id
          (.records [⟨1, noon 2024 3 5, "Lunch", twenty⟩])).1 = some es1 ∧ StoreInvariant es1)
      ∧ (∀ id description amount date,
          ∃ es1, loadExpenses (updateCmd id description amount date
            (.records [⟨1, noon 2024 3 5, "Lunch", twenty⟩])).1 = some es1
            ∧ StoreInvariant es1)
      ∧ (∀ description amount now,
          (∀ e ∈ [(⟨1, noon 2024 3 5, "Lunch", twenty⟩ : Expense)], e.ID ≠ maxInt) →
          ∃ es1, loadExpenses (addCmd description amount now
            (.records [⟨1, noon 2024 3 5, "Lunch", twenty⟩])).1 = some es1
            ∧ StoreInvariant es1) :=
  invariant_preserved (.records [⟨1, noon 2024 3 5, "Lunch", twenty⟩])
    [⟨1, noon 2024 3 5, "Lunch", twenty⟩] (by decide)
    ⟨by decide, by decide⟩

/-- C8 (as stated) fails on the code: on a stored set that satisfies the
invariant and holds the largest `int` as an identifier, `add` wraps `newID++`
and stores a record whose identifier is the smallest `int`, which is not
positive. -/
theorem invariant_broken_by_add :
    StoreInvariant [⟨maxInt, noon 2024 3 5, "Lunch", twenty⟩]
      ∧ loadExpenses (addCmd "Dinner" ten (noon 2024 3 6)
          (.records [⟨maxInt, noon 2024 3 5, "Lunch", twenty⟩])).1
          = some [⟨maxInt, noon 2024 3 5, "Lunch", twenty⟩,
              ⟨minInt, noon 2024 3 6, "Dinner", ten⟩]
      ∧ ¬ StoreInvariant [⟨maxInt, noon 2024 3 5, "Lunch", twenty⟩,
            ⟨minInt, noon 2024 3 6, "Dinner", ten⟩] := by
  refine ⟨⟨by decide, by decide⟩, by decide, ?_⟩
  rintro ⟨-, h⟩
  have := (h ⟨minInt, noon 2024 3 6, "Dinner", ten⟩ (by simp)).1
  revert this
  decide

/-- C7 (as amended): for every stored set, `summary` without a month reports
the float64 running total of the amounts of all records, accumulated in storage
order from `0.0`; with a month `m` in `1..12` it reports the same running total
over exactly the records dated in month `m` of the clock's current year; with a
month outside `1..12` it prints the month validation error; and in every case
the file is returned as it was.  Whenever every partial sum of the records
concerned, in storage order, is the value of a finite float64 number, the
running total is finite and equals the exact sum of their amounts. -/
theorem summary_contract (disk : Disk) (es : List Expense) (now : Time)
    (hload : loadExpenses disk = some es) :
    summaryCmd none now disk = (disk, .total (sumAmounts es))
      ∧ (∀ m : Int, 1 ≤ m → m ≤ 12 →
          summaryCmd (some m) now disk
            = (disk, .monthTotal m (sumAmounts (es.filter (inMonthOfYear m now.year)))))
      ∧ (∀ m : Int, m < 1 ∨ 12 < m → summaryCmd (some m) now disk = (disk, .invalidMonth))
      ∧ (∀ month, (summaryCmd month now disk).1 = disk)
      ∧ (PartialSumsExact 0 es →
          (sumAmounts es).isFinite = true ∧ (sumAmounts es).toInt = exactSum es)
      ∧ (∀ m : Int, PartialSumsExact 0 (es.filter (inMonthOfYear m now.year)) →
          (sumAmounts (es.filter (inMonthOfYear m now.year))).isFinite = true
            ∧ (sumAmounts (es.filter (inMonthOfYear m now.year))).toInt
                = exactSum (es.filter (inMonthOfYear m now.year))) := by
  have hfin : ∀ e ∈ es, e.Amount.isFinite = true :=
    fun e he => (decodable_iff.mp (load_decodable hload) e he).1
  refine ⟨?_, ?_, ?_, ?_, ?_, ?_⟩
  · simp [summaryCmd, hload, sumAmounts, foldl_all_eq]
  · intro m h1 h2
    have hm : ¬ (m < 1 ∨ m > 12) := by omega
    simp [summaryCmd, hload, sumAmounts, foldl_month_eq, hm]
  · intro m hm
    have hm2 : m < 1 ∨ m > 12 := by omega
    simp [summaryCmd, hload, hm2]
  · intro month
    cases month with
    | none => simp [summaryCmd, hload]
    | some m =>
      by_cases hm : m < 1 ∨ m > 12
      · simp [summaryCmd, hload, hm]
      · simp [summaryCmd, hload, hm]
  · intro hex
    exact sumAmounts_exact es hfin hex
  · intro m hex
    exact sumAmounts_exact _ (fun e he => hfin e (List.mem_of_mem_filter he)) hex

theorem summary_contract_witness :
    summaryCmd (some 3) (noon 2024 6 1)
        (.records [⟨1, noon 2024 3 5, "a", ten⟩, ⟨2, noon 2024 5 9, "b", fifteen⟩])
        = (.records [⟨1, noon 2024 3 5, "a", ten⟩, ⟨2, noon 2024 5 9, "b", fifteen⟩],
            .monthTotal 3 ten)
      ∧ summaryCmd none (noon 2024 6 1)
        (.records [⟨1, noon 2024 3 5, "a", ten⟩, ⟨2, noon 2024 5 9, "b", fifteen⟩])
        = (.records [⟨1, noon 2024 3 5, "a", ten⟩, ⟨2, noon 2024 5 9, "b", fifteen⟩],
            .total twentyFive)
      ∧ summaryCmd (some 3) (noon 2024 6 1)
        (.records [⟨1, noon 2023 3 5, "a", ten⟩, ⟨2, noon 2024 3 9, "b", fifteen⟩])
        = (.records [⟨1, noon 2023 3 5, "a", ten⟩, ⟨2, noon 2024 3 9, "b", fifteen⟩],
            .monthTotal 3 fifteen)
      ∧ ((sumAmounts [⟨1, noon 2024 3 5, "a", ten⟩, ⟨2, noon 2024 5 9, "b", fifteen⟩]).isFinite
            = true
          ∧ (sumAmounts [⟨1, noon 2024 3 5, "a", ten⟩, ⟨2, noon 2024 5 9, "b", fifteen⟩]).toInt
            = exactSum [⟨1, noon 2024 3 5, "a", ten⟩, ⟨2, noon 2024 5 9, "b", fifteen⟩]) :=
  ⟨((summary_contract
      (.records [⟨1, noon 2024 3 5, "a", ten⟩, ⟨2, noon 2024 5 9, "b", fifteen⟩])
      [⟨1, noon 2024 3 5, "a", ten⟩, ⟨2, noon 2024 5 9, "b", fifteen⟩] (noon 2024 6 1)
      (by decide)).2.1 3 (by decide) (by decide)).trans (by decide),
   ((summary_contract
      (.records [⟨1, noon 2024 3 5, "a", ten⟩, ⟨2, noon 2024 5 9, "b", fifteen⟩])
      [⟨1, noon 2024 3 5, "a", ten⟩, ⟨2, noon 2024 5 9, "b", fifteen⟩] (noon 2024 6 1)
      (by decide)).1).trans (by decide),
   ((summary_contract
      (.records [⟨1, noon 2023 3 5, "a", ten⟩, ⟨2, noon 2024 3 9, "b", fifteen⟩])
      [⟨1, noon 2023 3 5, "a", ten⟩, ⟨2, noon 2024 3 9, "b", fifteen⟩] (noon 2024 6 1)
      (by decide)).2.1 3 (by decide) (by decide)).trans (by decide),
   (summary_contract
      (.records [⟨1, noon 2024 3 5, "a", ten⟩, ⟨2, noon 2024 5 9, "b", fifteen⟩])
      [⟨1, noon 2024 3 5, "a", ten⟩, ⟨2, noon 2024 5 9, "b", fifteen⟩] (noon 2024 6 1)
      (by decide)).2.2.2.2.1
      ⟨⟨5, 1075, by decide, by decide, by rw [← Nat.shiftLeft_eq]; decide⟩,
        ⟨25, 1074, by decide, by decide, by rw [← Nat.shiftLeft_eq]; decide⟩, trivial⟩⟩

/-- C7 (as stated) fails on the code: with stored amounts `2^53`, `1`, `1` in
this order `summary` reports `2^53`, while the sum of the amounts is `2^53 + 2`,
itself a float64 value; with the same records stored in the order `1`, `1`,
`2^53` it reports `2^53 + 2`. -/
theorem summary_not_exact_sum :
    summaryCmd none (noon 2024 6 1)
        (.records [⟨1, noon 2024 3 5, "a", twoPow53⟩, ⟨2, noon 2024 3 6, "b", one⟩,
          ⟨3, noon 2024 3 7, "c", one⟩])
        = (.records [⟨1, noon 2024 3 5, "a", twoPow53⟩, ⟨2, noon 2024 3 6, "b", one⟩,
            ⟨3, noon 2024 3 7, "c", one⟩], .total twoPow53)
      ∧ exactSum [⟨1, noon 2024 3 5, "a", twoPow53⟩, ⟨2, noon 2024 3 6, "b", one⟩,
            ⟨3, noon 2024 3 7, "c", one⟩] = twoPow53Plus2.toInt
      ∧ twoPow53.toInt ≠ twoPow53Plus2.toInt
      ∧ summaryCmd none (noon 2024 6 1)
        (.records [⟨2, noon 2024 3 6, "b", one⟩, ⟨3, noon 2024 3 7, "c", one⟩,
          ⟨1, noon 2024 3 5, "a", twoPow53⟩])
        = (.records [⟨2, noon 2024 3 6, "b", one⟩, ⟨3, noon 2024 3 7, "c", one⟩,
            ⟨1, noon 2024 3 5, "a", twoPow53⟩], .total twoPow53Plus2) := by
  refine ⟨by decide, by decide, by decide, by decide⟩

end ExpenseTracker
